import Mathlib

/-!
Shallow embedding of the regex-potata regular-expression engine
(src/ast.rs, src/error.rs, src/parser.rs, src/nfa.rs, src/regex.rs)
together with theorems about the matching pipeline.

Modelling conventions:
* Rust `&str` values are modelled as `List Char` (lists of Unicode scalar
  values); Rust byte offsets are recovered via `Char.utf8Size`, matching
  `str::char_indices`.
* Rust `usize` is modelled as `Nat`; the one place where the source can
  underflow (`Nfa::range` computes `end - clone.state_count`) and the
  `+ 1` comparisons fed by it inside `NfaBuilder::add_transition` use
  release-mode wrapping arithmetic modulo `2 ^ 64` (`usizeSub`, `uadd1`).
  All other index arithmetic in the engine is bounded by the input sizes
  and cannot wrap, so plain `Nat` addition is used there.
* `HashSet<StateId>` values are modelled as strictly sorted `List Nat`;
  iteration order over such a set (unspecified for the Rust `HashSet`) is
  fixed to ascending order.
* `BTreeMap` values are modelled as association lists sorted by key;
  `HashMap` values as plain association lists (they are only ever queried
  pointwise, so their order is irrelevant).
* `String` names of capture groups are modelled as `List Char`;
  `char::is_alphabetic` is modelled by `Char.isAlpha` (ASCII letters), a
  restriction that no theorem below depends on.
-/

set_option linter.unusedVariables false

/-- Byte length of a list of characters, as for Rust `str::len`. -/
def utf8Len (l : List Char) : Nat :=
  (l.map Char.utf8Size).sum

/-- Drop a prefix of `n` bytes, as Rust `&s[n..]` (meaningful when `n` is a
    character boundary). -/
def byteDrop (l : List Char) (n : Nat) : List Char :=
  match l, n with
  | l, 0 => l
  | [], _ => []
  | c :: cs, n => byteDrop cs (n - c.utf8Size)

/-- Take a prefix of `n` bytes, as Rust `&s[..n]` (meaningful when `n` is a
    character boundary). -/
def byteTake (l : List Char) (n : Nat) : List Char :=
  match l, n with
  | _, 0 => []
  | [], _ => []
  | c :: cs, n => c :: byteTake cs (n - c.utf8Size)

/-- Byte-offset slicing, as Rust `&s[a..b]`. -/
def byteSlice (l : List Char) (a b : Nat) : List Char :=
  byteTake (byteDrop l a) (b - a)

/-- Enumeration of characters with their byte offsets starting at `base`,
    as Rust `str::char_indices` (shifted by `base`). -/
def charIdx (base : Nat) : List Char → List (Nat × Char)
  | [] => []
  | c :: cs => (base, c) :: charIdx (base + c.utf8Size) cs

/-- All character-boundary byte offsets of `l` (including `0` and the total
    byte length). -/
def byteBoundaries (l : List Char) : List Nat :=
  (List.range (l.length + 1)).map (fun k => utf8Len (l.take k))

/-- Insert into a strictly sorted list of naturals, keeping it strictly
    sorted (set semantics, models `HashSet<usize>` insertion). -/
def insertSorted (n : Nat) : List Nat → List Nat
  | [] => [n]
  | m :: ms =>
    if n < m then n :: m :: ms
    else if n = m then m :: ms
    else m :: insertSorted n ms

/-- Canonical sorted-set form of a list of naturals. -/
def sortDedup (l : List Nat) : List Nat :=
  l.foldr insertSorted []

/-- Association-list lookup, modelling `HashMap::get` / `BTreeMap::get`. -/
def alookup {α β : Type} [DecidableEq α] (k : α) : List (α × β) → Option β
  | [] => none
  | (k', v) :: rest => if k = k' then some v else alookup k rest

/-- The opening-brace character, written by code point. -/
def lbraceChar : Char := Char.ofNat 123

/-- The closing-brace character, written by code point. -/
def rbraceChar : Char := Char.ofNat 125

/-! ### src/ast.rs -/

/-- Member of a character class (`ast::ClassMember`). -/
inductive ClassMember where
  | Atom (c : Char)
  | Range (lo hi : Char)
deriving DecidableEq, Repr

/-- Character class (`ast::CharacterClass`). -/
structure CharacterClass where
  negate : Bool
  members : List ClassMember
deriving DecidableEq, Repr

/-- Counted-repetition bounds (`ast::Range`). -/
structure Range where
  min : Nat
  max : Option Nat
deriving DecidableEq, Repr

/-- Abstract syntax tree (`ast::Node`); the `Group` payload struct
    `ast::Group {inner, name, is_capturing}` is flattened into the
    constructor's arguments. -/
inductive Node where
  | Empty : Node
  | Alternation (a b : Node)
  | Concatenation (a b : Node)
  | Star (inner : Node)
  | Plus (inner : Node)
  | Optional (inner : Node)
  | Range (inner : Node) (range : Range)
  | Group (inner : Node) (is_capturing : Bool) (name : Option (List Char))
  | Wildcard : Node
  | Character (c : Char)
  | CharacterClass (cc : CharacterClass)
deriving DecidableEq, Repr

/-! ### src/error.rs -/

/-- Parsing errors (`error::ParsingError`). -/
inductive ParsingError where
  | UnexpectedEndOfInput
  | MissingCharacter (c : Char)
  | InvalidEscapeSequence
  | InvalidRangeQuantifier
  | InvalidCharacterClass
  | InvalidCaptureName
  | RangeOutOfOrder
deriving DecidableEq, Repr

/-! ### src/parser.rs -/

/-- Rust `input.get(..1)`: the first character when it occupies one byte
    (`None` on an empty string or when byte 1 is not a boundary). -/
def get1 (l : List Char) : Option Char :=
  match l with
  | [] => none
  | c :: _ => if c.utf8Size = 1 then some c else none

/-- Metacharacters that must be escaped (`parser::needs_escape`). -/
def needs_escape (ch : Char) : Bool :=
  ch = '\\' || ch = '[' || ch = ']' || ch = '(' || ch = ')' ||
  ch = lbraceChar || ch = rbraceChar || ch = '.' || ch = '?' ||
  ch = '+' || ch = '*' || ch = '-'

/-- Members of the `\d` class (`parser::digit_range`). -/
def digit_range : List ClassMember :=
  [ClassMember.Range '0' '9']

/-- Members of the `\w` class (`parser::word_range`). -/
def word_range : List ClassMember :=
  [ClassMember.Range '0' '9', ClassMember.Range 'a' 'z', ClassMember.Range 'A' 'Z']

/-- Members of the `\s` class (`parser::whitespace`). -/
def whitespace : List ClassMember :=
  [ClassMember.Atom ' ', ClassMember.Atom '\t', ClassMember.Atom '\n',
   ClassMember.Atom '\r', ClassMember.Atom '\x0C', ClassMember.Atom '\x0B']

/-- Class aliases after a backslash (`parser::get_range_alias`). -/
def get_range_alias (ch : Char) : Option Node :=
  if ch = 'd' then some (Node.CharacterClass ⟨false, digit_range⟩)
  else if ch = 'D' then some (Node.CharacterClass ⟨true, digit_range⟩)
  else if ch = 'w' then some (Node.CharacterClass ⟨false, word_range⟩)
  else if ch = 'W' then some (Node.CharacterClass ⟨true, word_range⟩)
  else if ch = 's' then some (Node.CharacterClass ⟨false, whitespace⟩)
  else if ch = 'S' then some (Node.CharacterClass ⟨true, whitespace⟩)
  else none

/-- Longest digit run and remainder, then `str::parse::<usize>`
    (`parser::take_number`; the `Result` wrapper of the source is always
    `Ok`, so it is dropped). -/
def take_number (input : List Char) : Option Nat × List Char :=
  let digits := input.takeWhile Char.isDigit
  let rest := input.dropWhile Char.isDigit
  let value := digits.foldl (fun a c => a * 10 + (c.toNat - '0'.toNat)) 0
  (if digits.isEmpty then none else if value < 2 ^ 64 then some value else none, rest)

/-- Longest alphabetic run and remainder (`parser::take_alphabetic`). -/
def take_alphabetic (input : List Char) : List Char × List Char :=
  (input.takeWhile Char.isAlpha, input.dropWhile Char.isAlpha)

/-- One character inside a class, with its escapedness flag
    (`parser::parse_char`). -/
def parse_char (input : List Char) : Except ParsingError (Char × Bool × List Char) :=
  match input with
  | '\\' :: rest =>
    match rest with
    | next :: rest2 =>
      if needs_escape next then .ok (next, true, rest2)
      else .error .InvalidEscapeSequence
    | [] => .error .UnexpectedEndOfInput
  | ch :: rest => .ok (ch, false, rest)
  | [] => .error .UnexpectedEndOfInput

/-- Escape outside a class (`parser::parse_metachar`). -/
def parse_metachar (input : List Char) : Except ParsingError (Node × List Char) :=
  match input with
  | ch :: rest =>
    if needs_escape ch then .ok (Node.Character ch, rest)
    else
      match get_range_alias ch with
      | some node => .ok (node, rest)
      | none => .error .InvalidEscapeSequence
  | [] => .error .UnexpectedEndOfInput

/-- Class members accumulator loop (`parser::parse_class_members_inner`);
    the `fuel` argument only bounds the recursion depth and is always
    sufficient at the entry points below. -/
def parse_class_members_inner (fuel : Nat) (input : List Char) (acc : List ClassMember) :
    Except ParsingError (List ClassMember × List Char) :=
  match fuel with
  | 0 => .error .UnexpectedEndOfInput
  | fuel + 1 =>
    match parse_char input with
    | .error e => .error e
    | .ok (ch, is_escaped, rest) =>
      if ch = ']' && !is_escaped then .ok (acc, rest)
      else
        match rest with
        | '-' :: rest2 =>
          match parse_char rest2 with
          | .error e => .error e
          | .ok (upper, _, rest3) =>
            parse_class_members_inner fuel rest3 (acc ++ [ClassMember.Range ch upper])
        | _ => parse_class_members_inner fuel rest (acc ++ [ClassMember.Atom ch])

/-- Class member list (`parser::parse_class_members`). -/
def parse_class_members (fuel : Nat) (input : List Char) :
    Except ParsingError (List ClassMember × List Char) :=
  parse_class_members_inner fuel input []

/-- Character-class body (`parser::parse_class`). -/
def parse_class (fuel : Nat) (input : List Char) : Except ParsingError (Node × List Char) :=
  let p := match get1 input with
    | some '^' => (true, input.drop 1)
    | _ => (false, input)
  match parse_class_members fuel p.2 with
  | .error e => .error e
  | .ok (members, rest) => .ok (Node.CharacterClass ⟨p.1, members⟩, rest)

/-- Upper bound of a counted repetition (`parser::parse_range_upper`). -/
def parse_range_upper (input : List Char) : Except ParsingError (Option Nat × List Char) :=
  match get1 input with
  | some c =>
    if c = rbraceChar then .ok (none, input.drop 1)
    else
      match take_number input with
      | (some number, rest) =>
        match get1 rest with
        | some c2 => if c2 = rbraceChar then .ok (some number, rest.drop 1)
                     else .error .InvalidRangeQuantifier
        | none => .error .InvalidRangeQuantifier
      | (none, _) => .error .InvalidRangeQuantifier
  | none => .error .InvalidRangeQuantifier

/-- Counted-repetition body (`parser::parse_range`). -/
def parse_range (input : List Char) : Except ParsingError (Range × List Char) :=
  match take_number input with
  | (some lower, rest) =>
    match get1 rest with
    | some c =>
      if c = ',' then
        match parse_range_upper (rest.drop 1) with
        | .error e => .error e
        | .ok (upper, rest2) => .ok (⟨lower, upper⟩, rest2)
      else if c = rbraceChar then .ok (⟨lower, some lower⟩, rest.drop 1)
      else .error .InvalidRangeQuantifier
    | none => .error .InvalidRangeQuantifier
  | (none, _) => .error .InvalidRangeQuantifier

mutual

/-- Alternation level (`parser::parse_alternation`). -/
def parse_alternation (fuel : Nat) (input : List Char) :
    Except ParsingError (Node × List Char) :=
  match fuel with
  | 0 => .error .UnexpectedEndOfInput
  | fuel + 1 =>
    match parse_concat fuel input with
    | .error e => .error e
    | .ok (lhs, rest) =>
      match get1 rest with
      | some '|' =>
        match parse_alternation fuel (rest.drop 1) with
        | .error e => .error e
        | .ok (rhs, rest2) => .ok (Node.Alternation lhs rhs, rest2)
      | _ => .ok (lhs, rest)

/-- Concatenation level (`parser::parse_concat`). -/
def parse_concat (fuel : Nat) (input : List Char) :
    Except ParsingError (Node × List Char) :=
  match fuel with
  | 0 => .error .UnexpectedEndOfInput
  | fuel + 1 =>
    match parse_quantifier fuel input with
    | .error e => .error e
    | .ok (lhs, rest) =>
      match get1 rest with
      | some '|' => .ok (lhs, rest)
      | some ')' => .ok (lhs, rest)
      | none => .ok (lhs, rest)
      | some _ =>
        match parse_concat fuel rest with
        | .error e => .error e
        | .ok (rhs, rest2) => .ok (Node.Concatenation lhs rhs, rest2)

/-- Quantifier level (`parser::parse_quantifier`). -/
def parse_quantifier (fuel : Nat) (input : List Char) :
    Except ParsingError (Node × List Char) :=
  match fuel with
  | 0 => .error .UnexpectedEndOfInput
  | fuel + 1 =>
    match parser_atom fuel input with
    | .error e => .error e
    | .ok (result, rest) =>
      match get1 rest with
      | some c =>
        if c = '+' then .ok (Node.Plus result, rest.drop 1)
        else if c = '*' then .ok (Node.Star result, rest.drop 1)
        else if c = '?' then .ok (Node.Optional result, rest.drop 1)
        else if c = lbraceChar then
          match parse_range (rest.drop 1) with
          | .error e => .error e
          | .ok (range, rest2) => .ok (Node.Range result range, rest2)
        else .ok (result, rest)
      | none => .ok (result, rest)

/-- Atom level (`parser::parser_atom`). -/
def parser_atom (fuel : Nat) (input : List Char) :
    Except ParsingError (Node × List Char) :=
  match fuel with
  | 0 => .error .UnexpectedEndOfInput
  | fuel + 1 =>
    match input with
    | [] => .ok (Node.Empty, input)
    | c :: rest =>
      if c = '(' then parse_group fuel rest
      else if c = '[' then parse_class fuel rest
      else if c = '\\' then parse_metachar rest
      else if c = '.' then .ok (Node.Wildcard, rest)
      else if c = ')' then .ok (Node.Empty, input)
      else .ok (Node.Character c, rest)

/-- Group body (`parser::parse_group`). -/
def parse_group (fuel : Nat) (input : List Char) :
    Except ParsingError (Node × List Char) :=
  match fuel with
  | 0 => .error .UnexpectedEndOfInput
  | fuel + 1 =>
    let shape : Except ParsingError (Bool × Option (List Char) × List Char) :=
      if input.take 2 = [':', '?'] then .ok (false, none, input.drop 2)
      else if input.take 2 = ['?', '<'] then
        let p := take_alphabetic (input.drop 2)
        if p.1.isEmpty || !(p.2.head? = some '>') then .error .InvalidCaptureName
        else .ok (true, some p.1, p.2.drop 1)
      else .ok (true, none, input)
    match shape with
    | .error e => .error e
    | .ok (is_capturing, name, rest) =>
      match parse_alternation fuel rest with
      | .error e => .error e
      | .ok (result, rest2) =>
        match get1 rest2 with
        | some ')' => .ok (Node.Group result is_capturing name, rest2.drop 1)
        | _ => .error (ParsingError.MissingCharacter ')')

end

/-- Entry point (`parser::parse_regex`); the fuel `4 * |input| + 8` bounds
    the recursion depth, which grows by at most four frames per consumed
    character. -/
def parse_regex (input : List Char) : Except ParsingError Node :=
  match parse_alternation (4 * input.length + 8) input with
  | .error e => .error e
  | .ok (result, _) => .ok result

/-! ### src/nfa.rs -/

/-- Transition label (`nfa::TransitionKind`). -/
inductive TransitionKind where
  | Character (c : Char)
  | Epsilon
  | Wildcard
  | CharacterClass (cc : CharacterClass)
deriving DecidableEq, Repr

/-- Labelled edge (`nfa::Transition`); the Rust field `end` is a Lean
    keyword and is rendered `end_`. -/
structure Transition where
  kind : TransitionKind
  end_ : Nat
deriving DecidableEq, Repr

/-- Transition adjacency map (`nfa::TransitionMap`, a `BTreeMap` modelled
    as an association list sorted by key). -/
abbrev TransitionMap : Type := List (Nat × List Transition)

/-- Whether the edge is an epsilon edge (`Transition::is_epsilon`). -/
def Transition.is_epsilon (t : Transition) : Bool :=
  t.kind = TransitionKind.Epsilon

/-- Whether the edge accepts the character (`Transition::accept`). -/
def Transition.accept (t : Transition) (input : Char) : Bool :=
  match t.kind with
  | .Character ch => ch = input
  | .Wildcard => true
  | .Epsilon => false
  | .CharacterClass cc =>
    let contains := cc.members.any fun m =>
      match m with
      | .Atom ch => input = ch
      | .Range lower upper => decide (lower ≤ input) && decide (input ≤ upper)
    cc.negate.xor contains

/-- Span of a capture group in NFA states (`nfa::CaptureGroup`). -/
structure CaptureGroup where
  start : Nat
  end_ : Nat
deriving DecidableEq, Repr

/-- Compiled automaton (`nfa::Nfa`). -/
structure Nfa where
  state_count : Nat
  transitions : TransitionMap
  capture_groups : List CaptureGroup
  named_capture_groups : List (List Char × CaptureGroup)
deriving DecidableEq

/-- Builder (`nfa::NfaBuilder`). -/
structure NfaBuilder where
  state_count : Nat
  transitions : TransitionMap
  capture_groups : List CaptureGroup
  named_capture_groups : List (List Char × CaptureGroup)
deriving DecidableEq

/-- Word size of the Rust `usize` type on a 64-bit target. -/
def usizeW : Nat := 2 ^ 64

/-- Release-mode wrapping `n + 1` on `usize`. -/
def uadd1 (n : Nat) : Nat := (n + 1) % usizeW

/-- Release-mode wrapping `a - b` on `usize` (for `b ≤ usizeW`). -/
def usizeSub (a b : Nat) : Nat := (a + usizeW - b) % usizeW

/-- Push an edge at a key, creating the entry if needed, keeping the map
    sorted (`self.transitions.entry(from).or_default().push(transition)`). -/
def mapPush (k : Nat) (t : Transition) : TransitionMap → TransitionMap
  | [] => [(k, [t])]
  | (k', ts) :: rest =>
    if k < k' then (k, [t]) :: (k', ts) :: rest
    else if k = k' then (k', ts ++ [t]) :: rest
    else (k', ts) :: mapPush k t rest

/-- Record an edge and update the incremental state count
    (`NfaBuilder::add_transition`). -/
def NfaBuilder.add_transition (b : NfaBuilder) (from_ : Nat) (kind : TransitionKind)
    (to_ : Nat) : NfaBuilder :=
  let transitions := mapPush from_ ⟨kind, to_⟩ b.transitions
  let sc := if uadd1 from_ > b.state_count then b.state_count + 1 else b.state_count
  let sc := if uadd1 to_ > sc then sc + 1 else sc
  { b with transitions := transitions, state_count := sc }

/-- Chainable form of `add_transition` (`NfaBuilder::transition`). -/
def NfaBuilder.transition (b : NfaBuilder) (from_ : Nat) (kind : TransitionKind)
    (to_ : Nat) : NfaBuilder :=
  b.add_transition from_ kind to_

/-- Insert into the named-group map, overwriting an existing key
    (`HashMap::insert`). -/
def namedInsert (name : List Char) (g : CaptureGroup) :
    List (List Char × CaptureGroup) → List (List Char × CaptureGroup)
  | [] => [(name, g)]
  | (n, g') :: rest =>
    if name = n then (n, g) :: rest else (n, g') :: namedInsert name g rest

/-- Merge another automaton shifted by `offset`
    (`NfaBuilder::extend`); transitions are re-added through
    `add_transition` in key order, capture groups are appended shifted. -/
def NfaBuilder.extend (b : NfaBuilder) (other : Nfa) (offset : Nat) : NfaBuilder :=
  let b := other.transitions.foldl
    (fun b p => p.2.foldl
      (fun b t => b.add_transition (p.1 + offset) t.kind (t.end_ + offset)) b) b
  let shifted := other.capture_groups.map (fun g => (⟨g.start + offset, g.end_ + offset⟩ : CaptureGroup))
  let b := { b with capture_groups := b.capture_groups ++ shifted }
  other.named_capture_groups.foldl
    (fun b p =>
      let m := namedInsert p.1 ⟨p.2.start + offset, p.2.end_ + offset⟩ b.named_capture_groups
      { b with named_capture_groups := m }) b

/-- Record an indexed capture group at the front of the list
    (`NfaBuilder::group`, which uses `insert(0, …)`). -/
def NfaBuilder.group (b : NfaBuilder) (start end_ : Nat) : NfaBuilder :=
  { b with capture_groups := ⟨start, end_⟩ :: b.capture_groups }

/-- Record a named capture group (`NfaBuilder::named_group`). -/
def NfaBuilder.named_group (b : NfaBuilder) (start end_ : Nat) (name : List Char) :
    NfaBuilder :=
  { b with named_capture_groups := namedInsert name ⟨start, end_⟩ b.named_capture_groups }

/-- Finish building (`NfaBuilder::build`). -/
def NfaBuilder.build (b : NfaBuilder) : Nfa :=
  ⟨b.state_count, b.transitions, b.capture_groups, b.named_capture_groups⟩

/-- Builder seeded from an automaton (`impl From<Nfa> for NfaBuilder`). -/
def NfaBuilder.ofNfa (nfa : Nfa) : NfaBuilder :=
  ⟨nfa.state_count, nfa.transitions, nfa.capture_groups, nfa.named_capture_groups⟩

/-- The empty builder (`NfaBuilder::default`). -/
def NfaBuilder.default : NfaBuilder := ⟨0, [], [], []⟩

/-- The initial state (`nfa::START`). -/
def START : Nat := 0

/-- Index of the single accepting state (`Nfa::end`). -/
def Nfa.end_ (nfa : Nfa) : Nat := nfa.state_count - 1

/-- Automaton for `Empty` (`Nfa::epsilon`). -/
def Nfa.epsilon : Nfa :=
  (NfaBuilder.default.transition START .Epsilon 1).build

/-- Automaton for a literal character (`Nfa::character`). -/
def Nfa.character (ch : Char) : Nfa :=
  (NfaBuilder.default.transition START (.Character ch) 1).build

/-- Automaton for `.` (`Nfa::wildcard`). -/
def Nfa.wildcard : Nfa :=
  (NfaBuilder.default.transition START .Wildcard 1).build

/-- Automaton for a character class (`Nfa::class`; `class` is a Lean
    keyword, hence the trailing underscore). -/
def Nfa.class_ (cc : CharacterClass) : Nfa :=
  (NfaBuilder.default.transition START (.CharacterClass cc) 1).build

/-- Concatenation (`Nfa::concatenate`). -/
def Nfa.concatenate (self : Nfa) (other : Nfa) : Nfa :=
  let offset := self.state_count
  (((NfaBuilder.ofNfa self).extend other offset).transition (offset - 1) .Epsilon offset).build

/-- Alternation (`Nfa::alternate`). -/
def Nfa.alternate (self : Nfa) (other : Nfa) : Nfa :=
  let offset := self.state_count + 1
  let new_end := offset + other.state_count
  ((((((NfaBuilder.default.transition START .Epsilon 1).transition START .Epsilon offset).extend
      self 1).extend other offset).transition (offset - 1) .Epsilon new_end).transition
      (new_end - 1) .Epsilon new_end).build

/-- Plus (`Nfa::one_or_more`). -/
def Nfa.one_or_more (self : Nfa) : Nfa :=
  let offset := self.state_count
  ((((NfaBuilder.default.transition START .Epsilon 1).extend self 1).transition offset
      .Epsilon 1).transition offset .Epsilon (offset + 1)).build

/-- Question mark (`Nfa::zero_or_one`). -/
def Nfa.zero_or_one (self : Nfa) : Nfa :=
  let end_ := self.end_
  ((NfaBuilder.ofNfa self).transition START .Epsilon end_).build

/-- Star (`Nfa::zero_or_more`). -/
def Nfa.zero_or_more (self : Nfa) : Nfa :=
  self.zero_or_one.one_or_more

/-- Counted repetition (`Nfa::range`); the two `for` loops are rendered as
    folds over `List.range`, and the `max = None` branch uses the wrapping
    subtraction `end - clone.state_count` of the source. -/
def Nfa.range (self : Nfa) (range : Range) : Nfa :=
  let clone := self
  let nfa := (List.range (range.min - 1)).foldl (fun acc _ => acc.concatenate clone) self
  match range.max with
  | some max =>
    (List.range (max - range.min)).foldl (fun acc _ => acc.concatenate clone.zero_or_one) nfa
  | none =>
    let end_ := nfa.end_
    (((NfaBuilder.ofNfa nfa).transition end_ .Epsilon (usizeSub end_ clone.state_count)).transition
        end_ .Epsilon (end_ + 1)).build

/-- Compilation of an AST into an automaton (`impl From<Node> for Nfa`,
    with `Nfa::group` inlined into the `Group` case). -/
def nfaFromNode : Node → Nfa
  | .Empty => Nfa.epsilon
  | .Character ch => Nfa.character ch
  | .Wildcard => Nfa.wildcard
  | .Group inner is_capturing name =>
    let nfa := nfaFromNode inner
    let end_ := nfa.end_
    match name, is_capturing with
    | some nm, _ => ((NfaBuilder.ofNfa nfa).named_group START end_ nm).build
    | none, true => ((NfaBuilder.ofNfa nfa).group START end_).build
    | none, false => nfa
  | .Plus node => (nfaFromNode node).one_or_more
  | .Star node => (nfaFromNode node).zero_or_more
  | .Optional node => (nfaFromNode node).zero_or_one
  | .Concatenation a b => (nfaFromNode a).concatenate (nfaFromNode b)
  | .Alternation a b => (nfaFromNode a).alternate (nfaFromNode b)
  | .Range inner range => (nfaFromNode inner).range range
  | .CharacterClass cc => Nfa.class_ cc

/-- Total number of edges, used to bound the closure worklist. -/
def totalTrans (nfa : Nfa) : Nat :=
  (nfa.transitions.map (fun p => p.2.length)).sum

/-- Worklist loop of `Nfa::epsilon_closure`; the fuel bounds the number of
    pops and `totalTrans nfa + 2` always suffices (each state's epsilon
    targets are pushed at most once). The visited set is kept sorted. -/
def closureLoop (nfa : Nfa) (fuel : Nat) (stack : List Nat) (eclosure : List Nat) :
    List Nat :=
  match fuel, stack with
  | 0, _ => eclosure
  | _, [] => eclosure
  | fuel + 1, state :: rest =>
    if state ∈ eclosure then closureLoop nfa fuel rest eclosure
    else
      let targets :=
        match alookup state nfa.transitions with
        | some ts => ts.foldr (fun t acc => if t.is_epsilon then t.end_ :: acc else acc) []
        | none => []
      closureLoop nfa fuel (rest ++ targets) (insertSorted state eclosure)

/-- Epsilon closure of a state (`Nfa::epsilon_closure`), as a sorted set. -/
def Nfa.epsilon_closure (nfa : Nfa) (start : Nat) : List Nat :=
  closureLoop nfa (totalTrans nfa + 2) [start] []

/-- Single-character successors of a state (`Nfa::next`). -/
def Nfa.next (nfa : Nfa) (state : Nat) (input : Char) : List Nat :=
  match alookup state nfa.transitions with
  | some ts => ts.foldr (fun t acc => if t.accept input then t.end_ :: acc else acc) []
  | none => []

/-- Accepting-state test (`Nfa::is_accepting`). -/
def Nfa.is_accepting (nfa : Nfa) (state : Nat) : Bool :=
  nfa.end_ = state

/-! ### src/regex.rs -/

/-- Reference to a capture group in the side tables (`regex::CaptureKind`). -/
inductive CaptureKind where
  | Indexed (index : Nat)
  | Named (name : List Char)
deriving DecidableEq, Repr

/-- Compiled regular expression (`regex::Regex`); the `Captures` side
    tables map a state id to the group references starting or ending
    there. -/
structure Regex where
  nfa : Nfa
  start_capture : List (Nat × List CaptureKind)
  end_capture : List (Nat × List CaptureKind)
deriving DecidableEq

/-- Push a capture reference at a state key
    (`map.entry(state).or_default().push(kind)`). -/
def tablePush (k : Nat) (v : CaptureKind) :
    List (Nat × List CaptureKind) → List (Nat × List CaptureKind)
  | [] => [(k, [v])]
  | (k', vs) :: rest =>
    if k = k' then (k', vs ++ [v]) :: rest else (k', vs) :: tablePush k v rest

/-- Construction of a `Regex` from an already-parsed AST: the table-building
    loops of `Regex::new` after `parse_regex` and `Nfa::from`. -/
def regexFromNode (ast : Node) : Regex :=
  let nfa := nfaFromNode ast
  let step1 := nfa.capture_groups.enum.foldl
    (fun t p => (tablePush p.2.start (CaptureKind.Indexed p.1) t.1,
                 tablePush p.2.end_ (CaptureKind.Indexed p.1) t.2))
    (([], []) : List (Nat × List CaptureKind) × List (Nat × List CaptureKind))
  let step2 := nfa.named_capture_groups.foldl
    (fun t p => (tablePush p.2.start (CaptureKind.Named p.1) t.1,
                 tablePush p.2.end_ (CaptureKind.Named p.1) t.2))
    step1
  ⟨nfa, step2.1, step2.2⟩

/-- Top-level compilation error (`error::Error`). -/
inductive Error where
  | ParsingError (e : ParsingError)
deriving DecidableEq, Repr

/-- Full compilation pipeline (`Regex::new`). -/
def Regex.new (pattern : List Char) : Except Error Regex :=
  match parse_regex pattern with
  | .error e => .error (Error.ParsingError e)
  | .ok ast => .ok (regexFromNode ast)

/-- Reported match (`regex::Match`); the Rust field `end` is rendered
    `end_` and the borrowed `&str` field as a `List Char`. -/
structure Match where
  start : Nat
  end_ : Nat
  string : List Char
deriving DecidableEq, Repr

/-- Match with sub-group bindings (`regex::Capture`); `captures` is a
    `BTreeMap` (sorted association list) and `named_captures` a `HashMap`
    (plain association list). -/
structure Capture where
  captures : List (Nat × Match)
  named_captures : List (List Char × Match)
deriving DecidableEq, Repr

/-- Indexed lookup (`Capture::get`). -/
def Capture.get (c : Capture) (index : Nat) : Option Match :=
  alookup index c.captures

/-- Named lookup (`Capture::get_name`). -/
def Capture.get_name (c : Capture) (name : List Char) : Option Match :=
  alookup name c.named_captures

/-- In-flight endpoints of one capture group: recorded start and end byte
    offsets, both optional (the `(Option<usize>, Option<usize>)` values of
    `Regex::matches`). -/
abbrev CapEntry : Type := Option Nat × Option Nat

/-- In-flight indexed capture table, sorted by group index. -/
abbrev CapMap : Type := List (Nat × CapEntry)

/-- In-flight named capture table. -/
abbrev NCapMap : Type := List (List Char × CapEntry)

/-- The `and_modify` closure of `update_capture_start`: move the start to
    the current position unless the end is already set. -/
def startUpd (position : Nat) (v : CapEntry) : CapEntry :=
  match v with
  | (_, none) => (some position, none)
  | v => v

/-- The `and_modify` closure of `update_capture_end`: set the end to the
    current position. -/
def endUpd (position : Nat) (v : CapEntry) : CapEntry :=
  (v.1, some position)

/-- Indexed-table part of `Regex::update_capture_start`
    (`entry.and_modify(…).or_insert((Some(position), None))`), keeping the
    map sorted by key. -/
def capUpdStart (k position : Nat) : CapMap → CapMap
  | [] => [(k, (some position, none))]
  | (k', v) :: rest =>
    if k < k' then (k, (some position, none)) :: (k', v) :: rest
    else if k = k' then (k', startUpd position v) :: rest
    else (k', v) :: capUpdStart k position rest

/-- Indexed-table part of `Regex::update_capture_end` (`and_modify` only:
    absent keys are left absent). -/
def capUpdEnd (k position : Nat) : CapMap → CapMap
  | [] => []
  | (k', v) :: rest =>
    if k = k' then (k', endUpd position v) :: rest
    else (k', v) :: capUpdEnd k position rest

/-- Named-table part of `Regex::update_capture_start`. -/
def ncapUpdStart (name : List Char) (position : Nat) : NCapMap → NCapMap
  | [] => [(name, (some position, none))]
  | (n, v) :: rest =>
    if name = n then (n, startUpd position v) :: rest
    else (n, v) :: ncapUpdStart name position rest

/-- Named-table part of `Regex::update_capture_end`. -/
def ncapUpdEnd (name : List Char) (position : Nat) : NCapMap → NCapMap
  | [] => []
  | (n, v) :: rest =>
    if name = n then (n, endUpd position v) :: rest
    else (n, v) :: ncapUpdEnd name position rest

/-- Dispatch on the capture kind (`Regex::update_capture_start`). -/
def update_capture_start (group : CaptureKind) (position : Nat)
    (captures : CapMap) (named : NCapMap) : CapMap × NCapMap :=
  match group with
  | .Indexed index => (capUpdStart (index + 1) position captures, named)
  | .Named name => (captures, ncapUpdStart name position named)

/-- Dispatch on the capture kind (`Regex::update_capture_end`). -/
def update_capture_end (group : CaptureKind) (position : Nat)
    (captures : CapMap) (named : NCapMap) : CapMap × NCapMap :=
  match group with
  | .Indexed index => (capUpdEnd (index + 1) position captures, named)
  | .Named name => (captures, ncapUpdEnd name position named)

/-- Per-state body of `Regex::update_captures`: apply the start-table
    references, then the end-table references, of one state. -/
def updateCapturesState (re : Regex) (state position : Nat)
    (captures : CapMap) (named : NCapMap) : CapMap × NCapMap :=
  let p1 :=
    match alookup state re.start_capture with
    | some groups =>
      groups.foldl (fun acc g => update_capture_start g position acc.1 acc.2) (captures, named)
    | none => (captures, named)
  match alookup state re.end_capture with
  | some groups =>
    groups.foldl (fun acc g => update_capture_end g position acc.1 acc.2) p1
  | none => p1

/-- Frontier sweep of `Regex::update_captures`; the frontier set is
    traversed in ascending state order (the Rust `HashSet` iteration order
    is unspecified). -/
def update_captures (re : Regex) (states : List Nat) (position : Nat)
    (captures : CapMap) (named : NCapMap) : CapMap × NCapMap :=
  states.foldl (fun acc s => updateCapturesState re s position acc.1 acc.2) (captures, named)

/-- Accepting-state test on a frontier (`Regex::has_accepting_state`). -/
def has_accepting_state (re : Regex) (states : List Nat) : Bool :=
  states.any fun s => re.nfa.is_accepting s

/-- Epsilon closure of a whole frontier
    (`states.iter().flat_map(|&s| nfa.epsilon_closure(s)).collect()`). -/
def closureSet (re : Regex) (states : List Nat) : List Nat :=
  sortDedup (states.foldr (fun s acc => re.nfa.epsilon_closure s ++ acc) [])

/-- One-character step of a whole frontier
    (`states.iter().flat_map(|state| nfa.next(*state, ch)).collect()`). -/
def stepSet (re : Regex) (states : List Nat) (ch : Char) : List Nat :=
  sortDedup (states.foldr (fun s acc => re.nfa.next s ch ++ acc) [])

/-- Result of the inner simulation loop of `Regex::matches` at one start
    position: both capture tables and the last accepting byte offset. -/
structure SimOut where
  caps : CapMap
  named : NCapMap
  endPos : Option Nat
deriving DecidableEq

/-- Inner loop of `Regex::matches` over the suffix characters (`pos` is
    the absolute byte offset of the head of `cs`): epsilon-close the
    frontier, update captures at `pos`, record `pos` when accepting, step
    on the character, and stop early when the frontier dies.  The final
    iteration (after the `for` loop in the source) is the `[]` case; an
    early `break` skips to it with an empty frontier, on which the
    remaining work is a no-op, so the break returns directly. -/
def simAux (re : Regex) : List Char → Nat → List Nat → CapMap → NCapMap →
    Option Nat → SimOut
  | [], pos, states, captures, named, endPos =>
    let st := closureSet re states
    let p := update_captures re st pos captures named
    let e := if has_accepting_state re st then some pos else endPos
    ⟨p.1, p.2, e⟩
  | ch :: rest, pos, states, captures, named, endPos =>
    let st := closureSet re states
    let p := update_captures re st pos captures named
    let e := if has_accepting_state re st then some pos else endPos
    let st2 := stepSet re st ch
    if st2.isEmpty then ⟨p.1, p.2, e⟩
    else simAux re rest (pos + ch.utf8Size) st2 p.1 p.2 e

/-- Simulation of one start position, beginning from the frontier
    `{START}` with empty capture tables (`Regex::matches`, inner part). -/
def simAtStart (re : Regex) (input : List Char) (start : Nat) : SimOut :=
  simAux re (byteDrop input start) start [START] [] [] none

/-- Construction of a reported `Match` (`Regex::new_mach`). -/
def new_mach (input : List Char) (start end_ : Option Nat) : Option Match :=
  match start, end_ with
  | some s, some e => some ⟨s, e, byteSlice input s e⟩
  | _, _ => none

/-- Insert into a key-sorted association list, overwriting an existing key
    (`BTreeMap` collection order). -/
def insertPairSorted (k : Nat) (m : Match) : List (Nat × Match) → List (Nat × Match)
  | [] => [(k, m)]
  | (k', m') :: rest =>
    if k < k' then (k, m) :: (k', m') :: rest
    else if k = k' then (k', m) :: rest
    else (k', m') :: insertPairSorted k m rest

/-- Insert into the named result map, overwriting an existing key
    (`HashMap` collection). -/
def insertNamedPair (n : List Char) (m : Match) :
    List (List Char × Match) → List (List Char × Match)
  | [] => [(n, m)]
  | (n', m') :: rest =>
    if n = n' then (n', m) :: rest else (n', m') :: insertNamedPair n m rest

/-- Assembly of the reported `Capture` from the in-flight tables, the search
    start and the recorded end (the `captures … .chain([(0, (Some(start),
    end))]) … .collect()` block of `Regex::matches`). -/
def buildCapture (input : List Char) (start : Nat) (caps : CapMap) (named : NCapMap)
    (endPos : Option Nat) : Capture :=
  let entries := caps ++ [(0, (some start, endPos))]
  let collected := entries.foldl
    (fun acc p =>
      match new_mach input p.2.1 p.2.2 with
      | some m => insertPairSorted p.1 m acc
      | none => acc) []
  let namedCollected := named.foldl
    (fun acc p =>
      match new_mach input p.2.1 p.2.2 with
      | some m => insertNamedPair p.1 m acc
      | none => acc) []
  ⟨collected, namedCollected⟩

/-- Outer loop of `Regex::matches` over the character positions of the
    input, carrying the accumulated result list.  The start position is
    taken from the previous capture's whole-match end as in the source; a
    start position below the current index is skipped.  With `all = false`
    the first capture is returned alone. -/
def matchesAux (re : Regex) (input : List Char) (all : Bool) :
    List (Nat × Char) → List Capture → List Capture
  | [], result => result
  | (i, _) :: rest, result =>
    let start :=
      match result.getLast? with
      | some capt =>
        match capt.get 0 with
        | some m => if i > m.end_ then i else m.end_
        | none => i
      | none => i
    if i < start then matchesAux re input all rest result
    else
      let out := simAux re (byteDrop input start) start [START] [] [] none
      match out.endPos with
      | none => matchesAux re input all rest result
      | some _ =>
        let capture := buildCapture input start out.caps out.named out.endPos
        if all then matchesAux re input all rest (result ++ [capture])
        else [capture]

/-- Search driver (`Regex::matches`). -/
def matchesFn (re : Regex) (input : List Char) (all : Bool) : List Capture :=
  matchesAux re input all (charIdx 0 input) []

/-- Leftmost capture (`Regex::captures`). -/
def capturesFn (re : Regex) (input : List Char) : Option Capture :=
  (matchesFn re input false).head?

/-- All captures (`Regex::captures_all`). -/
def capturesAllFn (re : Regex) (input : List Char) : List Capture :=
  matchesFn re input true

/-- Leftmost match (`Regex::find`). -/
def findFn (re : Regex) (input : List Char) : Option Match :=
  (matchesFn re input false).head?.bind fun c => alookup 0 c.captures

/-- Whole-match extraction of a capture list (the
    `flat_map(|mut captures| captures.captures.remove(&0))` step of
    `Regex::find_all`). -/
def capMatches (l : List Capture) : List Match :=
  l.foldr
    (fun c acc =>
      match alookup 0 c.captures with
      | some m => m :: acc
      | none => acc) []

/-- All matches (`Regex::find_all`). -/
def findAllFn (re : Regex) (input : List Char) : List Match :=
  capMatches (matchesFn re input true)

/-- Membership test (`Regex::test`). -/
def testFn (re : Regex) (input : List Char) : Bool :=
  (findFn re input).isSome

/-! ### Analysis devices for the matcher

The following definitions are not part of the source; they express, with
the source's own `closureSet`/`stepSet` primitives, the frontier after a
given word and the membership test of the simulation (spec §4.3.1), and
are used to state what a "match" at a position is. -/

/-- Frontier after consuming a word, starting from a given frontier. -/
def runFrontier (re : Regex) : List Char → List Nat → List Nat
  | [], st => st
  | c :: cs, st => runFrontier re cs (stepSet re (closureSet re st) c)

/-- Whether the automaton accepts exactly the word `chars` (the membership
    test of spec §4.3.1, without the early exit on an empty frontier,
    which returns the same value). -/
def nfaAccepts (re : Regex) (chars : List Char) : Bool :=
  has_accepting_state re (closureSet re (runFrontier re chars [START]))

/-- Whether some substring of `input` beginning at byte offset `i` is
    accepted, i.e. a match starting at `i` exists. -/
def matchExistsAt (re : Regex) (input : List Char) (i : Nat) : Bool :=
  (byteBoundaries input).any fun e => decide (i ≤ e) && nfaAccepts re (byteSlice input i e)

/-- End-only projection of the inner simulation loop, used to reason about
    `endPos` independently of the capture tables. -/
def simEndAux (re : Regex) : List Char → Nat → List Nat → Option Nat → Option Nat
  | [], pos, states, endPos =>
    let st := closureSet re states
    if has_accepting_state re st then some pos else endPos
  | ch :: rest, pos, states, endPos =>
    let st := closureSet re states
    let e := if has_accepting_state re st then some pos else endPos
    let st2 := stepSet re st ch
    if st2.isEmpty then e
    else simEndAux re rest (pos + ch.utf8Size) st2 e

/-! ### Predicates used by the theorems -/

deriving instance DecidableEq for Except

/-- Whether every transition endpoint of the automaton lies inside
    `[0, state_count)`, the state-numbering shape claimed for every
    construction. -/
def statesWithin (nfa : Nfa) : Bool :=
  nfa.transitions.all fun p =>
    decide (p.1 < nfa.state_count) && p.2.all fun t => decide (t.end_ < nfa.state_count)

/-- Whether the AST contains no group node at all. -/
def groupFree : Node → Bool
  | .Empty | .Wildcard | .Character _ | .CharacterClass _ => true
  | .Alternation a b => groupFree a && groupFree b
  | .Concatenation a b => groupFree a && groupFree b
  | .Star n | .Plus n | .Optional n => groupFree n
  | .Range n _ => groupFree n
  | .Group _ _ _ => false

/-- Whether no counted repetition in the AST is applied to a subexpression
    containing a group (counted repetition clones its operand, so a group
    under it would be duplicated in the capture list). -/
def rangeGroupSafe : Node → Bool
  | .Empty | .Wildcard | .Character _ | .CharacterClass _ => true
  | .Alternation a b => rangeGroupSafe a && rangeGroupSafe b
  | .Concatenation a b => rangeGroupSafe a && rangeGroupSafe b
  | .Star n | .Plus n | .Optional n => rangeGroupSafe n
  | .Group inner _ _ => rangeGroupSafe inner
  | .Range inner _ => groupFree inner

/-- Shift of a capture span by a state offset. -/
def shiftGroup (offset : Nat) (g : CaptureGroup) : CaptureGroup :=
  ⟨g.start + offset, g.end_ + offset⟩

/-- Modelled from the spec (§3 "Order of this list IS the 1-based index
    order", §4.2 "Capture list order must reflect source order of opening
    parentheses"): the unnamed capturing groups of the pattern collected
    in source order of their opening parentheses — each group is listed
    when its node is reached, before the groups of its body, left subtrees
    before right subtrees.  Named groups are not listed (the amendment to
    the claim).  State spans are expressed with the compiled sub-automata
    sizes so that the list can be compared with `Nfa.capture_groups`. -/
def specGroupOrder : Node → List CaptureGroup
  | .Empty | .Wildcard | .Character _ | .CharacterClass _ => []
  | .Concatenation a b =>
    specGroupOrder a ++ (specGroupOrder b).map (shiftGroup (nfaFromNode a).state_count)
  | .Alternation a b =>
    (specGroupOrder a).map (shiftGroup 1) ++
      (specGroupOrder b).map (shiftGroup ((nfaFromNode a).state_count + 1))
  | .Plus n => (specGroupOrder n).map (shiftGroup 1)
  | .Star n => (specGroupOrder n).map (shiftGroup 1)
  | .Optional n => specGroupOrder n
  | .Range _ _ => []
  | .Group inner is_capturing name =>
    match name, is_capturing with
    | some _, _ => specGroupOrder inner
    | none, true => ⟨0, (nfaFromNode inner).state_count - 1⟩ :: specGroupOrder inner
    | none, false => specGroupOrder inner

/-- Well-formedness of one reported match against the input: ordered
    endpoints, both on character boundaries, and the reported substring
    is the byte slice between them. -/
def MatchWF (input : List Char) (m : Match) : Prop :=
  m.start ≤ m.end_ ∧ m.start ∈ byteBoundaries input ∧ m.end_ ∈ byteBoundaries input ∧
    m.string = byteSlice input m.start m.end_

/-- Well-formedness of a whole reported capture: every indexed and every
    named binding is a well-formed match. -/
def CapturesWF (input : List Char) (c : Capture) : Prop :=
  (∀ p ∈ c.captures, MatchWF input p.2) ∧ ∀ p ∈ c.named_captures, MatchWF input p.2

/-- Invariant of one in-flight capture entry at simulation position `pos`:
    the start is always recorded, both recorded offsets are character
    boundaries not beyond `pos`, and the interval is ordered. -/
def EntryInv (input : List Char) (pos : Nat) (v : CapEntry) : Prop :=
  ∃ s, v.1 = some s ∧ s ∈ byteBoundaries input ∧ s ≤ pos ∧
    ∀ e, v.2 = some e → e ∈ byteBoundaries input ∧ e ≤ pos ∧ s ≤ e

/-! ### Claim theorems: concrete claims -/

/-- C10: for every compiled pattern — including patterns that match the
    empty string — matching against the empty input reports no match:
    `test` is false, `find` and `captures` are `None`, `find_all` (and
    `captures_all`) are empty, because the search loop iterates over the
    input's character positions and never examines an empty input. -/
theorem c10_empty_input_never_matches (re : Regex) :
    testFn re [] = false ∧ findFn re [] = none ∧ capturesFn re [] = none ∧
    findAllFn re [] = [] ∧ capturesAllFn re [] = [] :=
  ⟨rfl, rfl, rfl, rfl, rfl⟩

/-- C3: evaluation of the code at the failing input.  For `min = 0` the
    builder does not start from an `Empty` automaton: the loop `for _ in
    1..min` performs no iteration and one mandatory copy of the operand
    remains, so the automaton built for `e{0}` is exactly the automaton
    for `e`, and neither the automaton for `e{0}` nor the one for `e{0,2}`
    accepts the empty string (the latter accepts `e`). -/
theorem c3_range_min_zero_keeps_one_copy :
    nfaFromNode (Node.Range (Node.Character 'e') ⟨0, some 0⟩) = nfaFromNode (Node.Character 'e')
    ∧ nfaAccepts (regexFromNode (Node.Range (Node.Character 'e') ⟨0, some 0⟩)) [] = false
    ∧ nfaAccepts (regexFromNode (Node.Range (Node.Character 'e') ⟨0, some 2⟩)) [] = false
    ∧ nfaAccepts (regexFromNode (Node.Range (Node.Character 'e') ⟨0, some 2⟩)) ['e'] = true := by
  decide

/-- C5: evaluation of the code at the failing input.  Parsing the class
    member `b-a`, whose first code point exceeds the second, succeeds with
    the out-of-order member `Range('b','a')` instead of failing with
    `RangeOutOfOrder` (an error variant the parser never raises). -/
theorem c5_out_of_order_class_range_parses :
    parse_regex ['[', 'b', '-', 'a', ']'] =
      Except.ok (Node.CharacterClass ⟨false, [ClassMember.Range 'b' 'a']⟩)
    ∧ 'a' < 'b' := by
  decide

/-- C6 counterexample: inside a character class the alias `\d` is not
    accepted — the pattern `[\d]` fails to parse with
    `InvalidEscapeSequence`, refuting "escapes inside a class follow the
    same rules as elsewhere" (under which `[\d]` would parse). -/
theorem c6_class_alias_rejected :
    parse_regex ['[', '\\', 'd', ']'] = Except.error ParsingError.InvalidEscapeSequence := by
  decide

/-- C6 amended: inside a character class, a backslash must be followed by a
    metacharacter, which is taken literally (with the escaped flag set);
    any other character — in particular the aliases d, D, w, W, s, S that
    are accepted outside classes — raises `InvalidEscapeSequence`. -/
theorem c6_amended_class_escape_rule (c : Char) (rest : List Char) :
    parse_char ('\\' :: c :: rest) =
      if needs_escape c then Except.ok (c, true, rest)
      else Except.error ParsingError.InvalidEscapeSequence := by
  rfl

/-- C7: evaluation of the code at the failing input.  For the AST of
    `e{1,}` (counted repetition, `min = 1`, no upper bound) the builder
    computes `end - clone.state_count = 1 - 2`, which wraps to
    `2 ^ 64 - 1`, so the built automaton has a transition pointing far
    outside `[0, state_count)` and `state_count - 1` is not its greatest
    state: the one-start/one-accept shape is violated. -/
theorem c7_unbounded_range_min_one_breaks_shape :
    statesWithin (nfaFromNode (Node.Range (Node.Character 'e') ⟨1, none⟩)) = false
    ∧ (nfaFromNode (Node.Range (Node.Character 'e') ⟨1, none⟩)).state_count = 3
    ∧ (nfaFromNode (Node.Range (Node.Character 'e') ⟨1, none⟩)).transitions =
        [(0, [⟨TransitionKind.Character 'e', 1⟩]),
         (1, [⟨TransitionKind.Epsilon, usizeW - 1⟩, ⟨TransitionKind.Epsilon, 2⟩])] := by
  decide

/-- C4 counterexample: in the pattern `(?<x>a)(b)` the named group does
    not count toward the numeric indices: index 1 is bound to the unnamed
    group `(b)` (the second opening parenthesis), index 2 is unbound, and
    the named group is reachable only through `get_name`.  Under the claim
    index 1 would be the named group's binding `a` at span (0,1) and index
    2 would be `b`. -/
theorem c4_named_group_not_indexed :
    (capturesFn
        (regexFromNode (Node.Concatenation
          (Node.Group (Node.Character 'a') true (some ['x']))
          (Node.Group (Node.Character 'b') true none)))
        ['a', 'b']).map (fun c => (c.get 1, c.get 2, c.get_name ['x'])) =
      some (some ⟨1, 2, ['b']⟩, none, some ⟨0, 1, ['a']⟩) := by
  decide

/-! ### Capture-list structure lemmas (for C4) -/

/-- Generic preservation of a projection along a left fold. -/
theorem foldl_proj_eq {α β γ : Type} (f : β → α → β) (proj : β → γ)
    (h : ∀ b a, proj (f b a) = proj b) :
    ∀ (l : List α) (b : β), proj (l.foldl f b) = proj b := by
  intro l
  induction l with
  | nil => intro b; rfl
  | cons x xs ih => intro b; rw [List.foldl_cons, ih, h]

theorem add_transition_cg (b : NfaBuilder) (f : Nat) (k : TransitionKind) (t : Nat) :
    (b.add_transition f k t).capture_groups = b.capture_groups := rfl

theorem build_cg (b : NfaBuilder) : b.build.capture_groups = b.capture_groups := rfl

theorem ofNfa_cg (n : Nfa) : (NfaBuilder.ofNfa n).capture_groups = n.capture_groups := rfl

theorem transition_cg (b : NfaBuilder) (f : Nat) (k : TransitionKind) (t : Nat) :
    (b.transition f k t).capture_groups = b.capture_groups := rfl

theorem extend_cg (b : NfaBuilder) (other : Nfa) (offset : Nat) :
    (b.extend other offset).capture_groups =
      b.capture_groups ++ other.capture_groups.map (shiftGroup offset) := by
  unfold NfaBuilder.extend
  have hnamed := foldl_proj_eq
    (fun (b : NfaBuilder) (p : List Char × CaptureGroup) =>
      let m := namedInsert p.1 ⟨p.2.start + offset, p.2.end_ + offset⟩ b.named_capture_groups
      { b with named_capture_groups := m })
    (fun b => b.capture_groups) (fun b a => rfl) other.named_capture_groups
  rw [hnamed]
  have htrans := foldl_proj_eq
    (fun (b : NfaBuilder) (p : Nat × List Transition) =>
      p.2.foldl (fun b t => b.add_transition (p.1 + offset) t.kind (t.end_ + offset)) b)
    (fun b => b.capture_groups)
    (fun b a => foldl_proj_eq
      (fun b t => b.add_transition (a.1 + offset) t.kind (t.end_ + offset))
      (fun b => b.capture_groups) (fun b t => rfl) a.2 b)
    other.transitions b
  simp only [htrans]
  rfl

theorem concatenate_cg (a b : Nfa) :
    (a.concatenate b).capture_groups =
      a.capture_groups ++ b.capture_groups.map (shiftGroup a.state_count) := by
  unfold Nfa.concatenate
  rw [build_cg, transition_cg, extend_cg, ofNfa_cg]

theorem alternate_cg (a b : Nfa) :
    (a.alternate b).capture_groups =
      a.capture_groups.map (shiftGroup 1) ++
        b.capture_groups.map (shiftGroup (a.state_count + 1)) := by
  unfold Nfa.alternate
  rw [build_cg, transition_cg, transition_cg, extend_cg, extend_cg,
    transition_cg, transition_cg]
  rfl

theorem one_or_more_cg (a : Nfa) :
    a.one_or_more.capture_groups = a.capture_groups.map (shiftGroup 1) := by
  unfold Nfa.one_or_more
  rw [build_cg, transition_cg, transition_cg, extend_cg, transition_cg]
  rfl

theorem zero_or_one_cg (a : Nfa) :
    a.zero_or_one.capture_groups = a.capture_groups := by
  unfold Nfa.zero_or_one
  rw [build_cg, transition_cg, ofNfa_cg]

theorem zero_or_more_cg (a : Nfa) :
    a.zero_or_more.capture_groups = a.capture_groups.map (shiftGroup 1) := by
  unfold Nfa.zero_or_more
  rw [one_or_more_cg, zero_or_one_cg]

theorem range_cg_empty (a : Nfa) (r : Range) (h : a.capture_groups = []) :
    (a.range r).capture_groups = [] := by
  unfold Nfa.range
  have hfold : ∀ (l : List Nat) (acc : Nfa), acc.capture_groups = [] →
      (l.foldl (fun acc _ => acc.concatenate a) acc).capture_groups = [] := by
    intro l
    induction l with
    | nil => intro acc hacc; exact hacc
    | cons x xs ih =>
      intro acc hacc
      rw [List.foldl_cons]
      exact ih _ (by rw [concatenate_cg, hacc, h]; rfl)
  have hfold2 : ∀ (l : List Nat) (acc : Nfa), acc.capture_groups = [] →
      (l.foldl (fun acc _ => acc.concatenate a.zero_or_one) acc).capture_groups = [] := by
    intro l
    induction l with
    | nil => intro acc hacc; exact hacc
    | cons x xs ih =>
      intro acc hacc
      rw [List.foldl_cons]
      exact ih _ (by rw [concatenate_cg, hacc, zero_or_one_cg, h]; rfl)
  cases hr : r.max with
  | some m =>
    simp only [hr]
    exact hfold2 _ _ (hfold _ _ h)
  | none =>
    simp only [hr]
    rw [build_cg, transition_cg, transition_cg, ofNfa_cg]
    exact hfold _ _ h

theorem groupFree_cg (n : Node) (h : groupFree n = true) :
    (nfaFromNode n).capture_groups = [] := by
  induction n with
  | Empty => rfl
  | Wildcard => rfl
  | Character c => rfl
  | CharacterClass cc => rfl
  | Alternation a b iha ihb =>
    simp only [groupFree, Bool.and_eq_true] at h
    simp only [nfaFromNode, alternate_cg, iha h.1, ihb h.2, List.map_nil, List.nil_append]
  | Concatenation a b iha ihb =>
    simp only [groupFree, Bool.and_eq_true] at h
    simp only [nfaFromNode, concatenate_cg, iha h.1, ihb h.2, List.map_nil, List.nil_append]
  | Star a ih =>
    simp only [groupFree] at h
    simp only [nfaFromNode, zero_or_more_cg, ih h, List.map_nil]
  | Plus a ih =>
    simp only [groupFree] at h
    simp only [nfaFromNode, one_or_more_cg, ih h, List.map_nil]
  | Optional a ih =>
    simp only [groupFree] at h
    simp only [nfaFromNode, zero_or_one_cg, ih h]
  | Range a r ih =>
    simp only [groupFree] at h
    exact range_cg_empty _ _ (ih h)
  | Group inner cap name ih =>
    simp only [groupFree] at h
    exact absurd h (by decide)

theorem group_builder_cg (b : NfaBuilder) (s e : Nat) :
    (b.group s e).capture_groups = ⟨s, e⟩ :: b.capture_groups := rfl

theorem named_group_cg (b : NfaBuilder) (s e : Nat) (nm : List Char) :
    (b.named_group s e nm).capture_groups = b.capture_groups := rfl

/-- C4 amended: for every pattern in which no counted repetition is applied
    to a group-containing subexpression, the indexed capture-group list of
    the compiled automaton is exactly the list of the unnamed capturing
    groups in source order of their opening parentheses (outer before
    inner, left before right); named groups do not appear in it (they are
    reachable only through `get_name`), so an unnamed group's 1-based
    index counts only the unnamed capturing groups before it. -/
theorem c4_amended_capture_list_source_order (n : Node) (h : rangeGroupSafe n = true) :
    (nfaFromNode n).capture_groups = specGroupOrder n := by
  induction n with
  | Empty => rfl
  | Wildcard => rfl
  | Character c => rfl
  | CharacterClass cc => rfl
  | Alternation a b iha ihb =>
    simp only [rangeGroupSafe, Bool.and_eq_true] at h
    simp only [nfaFromNode, alternate_cg, specGroupOrder, iha h.1, ihb h.2]
  | Concatenation a b iha ihb =>
    simp only [rangeGroupSafe, Bool.and_eq_true] at h
    simp only [nfaFromNode, concatenate_cg, specGroupOrder, iha h.1, ihb h.2]
  | Star a ih =>
    simp only [rangeGroupSafe] at h
    simp only [nfaFromNode, zero_or_more_cg, specGroupOrder, ih h]
  | Plus a ih =>
    simp only [rangeGroupSafe] at h
    simp only [nfaFromNode, one_or_more_cg, specGroupOrder, ih h]
  | Optional a ih =>
    simp only [rangeGroupSafe] at h
    simp only [nfaFromNode, zero_or_one_cg, specGroupOrder, ih h]
  | Range a r ih =>
    simp only [rangeGroupSafe] at h
    simp only [specGroupOrder]
    exact range_cg_empty _ _ (groupFree_cg _ h)
  | Group inner cap name ih =>
    simp only [rangeGroupSafe] at h
    cases name with
    | some nm =>
      simp only [nfaFromNode, named_group_cg, ofNfa_cg, build_cg, specGroupOrder, ih h]
    | none =>
      cases cap with
      | true =>
        simp only [nfaFromNode, build_cg, group_builder_cg, ofNfa_cg, specGroupOrder, ih h]
        rfl
      | false =>
        simp only [nfaFromNode, specGroupOrder, ih h]

/-- C4 witness: the amended theorem applied to the pattern `(?<x>a)(b)`
    together with the concrete value of both sides. -/
theorem c4_amended_capture_list_source_order_witness :
    rangeGroupSafe (Node.Concatenation
        (Node.Group (Node.Character 'a') true (some ['x']))
        (Node.Group (Node.Character 'b') true none)) = true
    ∧ (nfaFromNode (Node.Concatenation
        (Node.Group (Node.Character 'a') true (some ['x']))
        (Node.Group (Node.Character 'b') true none))).capture_groups =
      specGroupOrder (Node.Concatenation
        (Node.Group (Node.Character 'a') true (some ['x']))
        (Node.Group (Node.Character 'b') true none)) :=
  ⟨by decide, c4_amended_capture_list_source_order _ (by decide)⟩

/-! ### Matcher result shape lemmas -/

theorem alookup_insertPairSorted_self (k : Nat) (m : Match) :
    ∀ (l : List (Nat × Match)), alookup k (insertPairSorted k m l) = some m := by
  intro l
  induction l with
  | nil => simp [insertPairSorted, alookup]
  | cons p rest ih =>
    obtain ⟨k', m'⟩ := p
    by_cases h1 : k < k'
    · simp [insertPairSorted, h1, alookup]
    · by_cases h2 : k = k'
      · simp [insertPairSorted, h1, h2, alookup]
      · simp [insertPairSorted, h1, h2, alookup, ih]

theorem buildCapture_get0 (input : List Char) (start : Nat) (caps : CapMap)
    (named : NCapMap) (e : Nat) :
    alookup 0 (buildCapture input start caps named (some e)).captures =
      some ⟨start, e, byteSlice input start e⟩ := by
  unfold buildCapture
  simp only [List.foldl_append, List.foldl_cons, List.foldl_nil, new_mach]
  exact alookup_insertPairSorted_self 0 _ _

/-- Every capture produced by the outer loop is either inherited from the
    accumulator or assembled by `buildCapture` with a recorded end. -/
theorem matchesAux_mem (re : Regex) (input : List Char) (all : Bool) (P : Capture → Prop)
    (hbuild : ∀ start caps named e, P (buildCapture input start caps named (some e))) :
    ∀ (pairs : List (Nat × Char)) (acc : List Capture), (∀ c ∈ acc, P c) →
      ∀ c ∈ matchesAux re input all pairs acc, P c := by
  intro pairs
  induction pairs with
  | nil =>
    intro acc hacc c hc
    exact hacc c hc
  | cons p rest ih =>
    obtain ⟨i, ch⟩ := p
    intro acc hacc c hc
    simp only [matchesAux] at hc
    by_cases hlt : i < (match acc.getLast? with
      | some capt =>
        match capt.get 0 with
        | some m => if i > m.end_ then i else m.end_
        | none => i
      | none => i)
    · rw [if_pos hlt] at hc
      exact ih acc hacc c hc
    · rw [if_neg hlt] at hc
      set start := (match acc.getLast? with
        | some capt =>
          match capt.get 0 with
          | some m => if i > m.end_ then i else m.end_
          | none => i
        | none => i) with hstart
      cases hend : (simAux re (byteDrop input start) start [START] [] [] none).endPos with
      | none =>
        rw [hend] at hc
        exact ih acc hacc c hc
      | some e =>
        rw [hend] at hc
        cases all with
        | true =>
          simp only [if_pos] at hc
          refine ih _ ?_ c hc
          intro c' hc'
          rcases List.mem_append.mp hc' with h | h
          · exact hacc c' h
          · rcases List.mem_singleton.mp h with rfl
            exact hbuild start _ _ e
        | false =>
          simp only [Bool.false_eq_true, if_false] at hc
          rcases List.mem_singleton.mp hc with rfl
          exact hbuild start _ _ e

/-- Specialization: every produced capture has a whole-match entry. -/
theorem matchesFn_get0_isSome (re : Regex) (input : List Char) (all : Bool) :
    ∀ c ∈ matchesFn re input all, (alookup 0 c.captures).isSome = true := by
  intro c hc
  refine matchesAux_mem re input all (fun c => (alookup 0 c.captures).isSome = true) ?_
    (charIdx 0 input) [] (by intro c h; cases h) c hc
  intro start caps named e
  rw [buildCapture_get0]
  rfl

/-- C2: `test` is defined as `find`'s definedness; `find` and `captures`
    are defined on exactly the same inputs; and the whole-match entry of
    `captures` is the value `find` returns. -/
theorem c2_test_find_captures_agree (re : Regex) (input : List Char) :
    testFn re input = (findFn re input).isSome
    ∧ ((findFn re input).isSome ↔ (capturesFn re input).isSome)
    ∧ (capturesFn re input).bind (fun c => c.get 0) = findFn re input := by
  refine ⟨rfl, ?_, rfl⟩
  unfold findFn capturesFn
  cases hh : (matchesFn re input false).head? with
  | none => simp
  | some c =>
    have hc : c ∈ matchesFn re input false := by
      cases hl : matchesFn re input false with
      | nil => rw [hl] at hh; cases hh
      | cons a t =>
        rw [hl] at hh
        simp only [List.head?_cons, Option.some.injEq] at hh
        rw [← hh]
        exact List.mem_cons_self a t
    have h0 := matchesFn_get0_isSome re input false c hc
    simp [h0]

/-! ### Byte-offset arithmetic -/

theorem utf8Len_nil : utf8Len [] = 0 := rfl

theorem utf8Len_cons (c : Char) (cs : List Char) :
    utf8Len (c :: cs) = c.utf8Size + utf8Len cs := by
  simp [utf8Len]

theorem byteTake_zero (l : List Char) : byteTake l 0 = [] := by
  cases l <;> rfl

theorem byteDrop_zero (l : List Char) : byteDrop l 0 = l := by
  cases l <;> rfl

theorem byteTake_cons_pos (c : Char) (cs : List Char) (n : Nat) (h : 0 < n) :
    byteTake (c :: cs) n = c :: byteTake cs (n - c.utf8Size) := by
  cases n with
  | zero => cases h
  | succ n => rfl

theorem byteDrop_cons_pos (c : Char) (cs : List Char) (n : Nat) (h : 0 < n) :
    byteDrop (c :: cs) n = byteDrop cs (n - c.utf8Size) := by
  cases n with
  | zero => cases h
  | succ n => rfl

theorem byteTake_utf8Len_take : ∀ (k : Nat) (l : List Char),
    byteTake l (utf8Len (l.take k)) = l.take k := by
  intro k
  induction k with
  | zero => intro l; simp [utf8Len_nil, byteTake_zero]
  | succ k ih =>
    intro l
    cases l with
    | nil => rfl
    | cons c cs =>
      rw [List.take_succ_cons, utf8Len_cons,
        byteTake_cons_pos c cs _ (Nat.lt_of_lt_of_le (Char.utf8Size_pos c) (Nat.le_add_right _ _)),
        Nat.add_sub_cancel_left, ih]

theorem byteDrop_utf8Len_take : ∀ (k : Nat) (l : List Char),
    byteDrop l (utf8Len (l.take k)) = l.drop k := by
  intro k
  induction k with
  | zero => intro l; simp [utf8Len_nil, byteDrop_zero]
  | succ k ih =>
    intro l
    cases l with
    | nil => rfl
    | cons c cs =>
      rw [List.take_succ_cons, utf8Len_cons,
        byteDrop_cons_pos c cs _ (Nat.lt_of_lt_of_le (Char.utf8Size_pos c) (Nat.le_add_right _ _)),
        Nat.add_sub_cancel_left, List.drop_succ_cons, ih]

theorem utf8Len_take_add : ∀ (k : Nat) (l : List Char) (j : Nat),
    utf8Len (l.take (k + j)) = utf8Len (l.take k) + utf8Len ((l.drop k).take j) := by
  intro k
  induction k with
  | zero => intro l j; rw [Nat.zero_add, List.take_zero, List.drop_zero, utf8Len_nil, Nat.zero_add]
  | succ k ih =>
    intro l j
    cases l with
    | nil => simp [utf8Len_nil]
    | cons c cs =>
      rw [List.drop_succ_cons, Nat.succ_add, List.take_succ_cons, List.take_succ_cons,
        utf8Len_cons, utf8Len_cons, ih, Nat.add_assoc]

theorem utf8Len_take_le (l : List Char) (k k' : Nat) (h : k ≤ k') :
    utf8Len (l.take k) ≤ utf8Len (l.take k') := by
  have := utf8Len_take_add k l (k' - k)
  rw [Nat.add_sub_cancel' h] at this
  rw [this]
  exact Nat.le_add_right _ _

theorem utf8Len_take_lt (l : List Char) (k k' : Nat) (hk : k < l.length) (h : k < k') :
    utf8Len (l.take k) < utf8Len (l.take k') := by
  have hadd := utf8Len_take_add k l (k' - k)
  rw [Nat.add_sub_cancel' (Nat.le_of_lt h)] at hadd
  have hne : l.drop k ≠ [] := by
    intro hnil
    have hlen := List.length_drop k l
    rw [hnil] at hlen
    simp only [List.length_nil] at hlen
    omega
  obtain ⟨c, cs, hcons⟩ := List.exists_cons_of_ne_nil hne
  have hpos : 0 < utf8Len ((l.drop k).take (k' - k)) := by
    rw [hcons]
    cases hkk : k' - k with
    | zero => omega
    | succ j =>
      rw [List.take_succ_cons, utf8Len_cons]
      have := Char.utf8Size_pos c
      omega
  omega

theorem mem_byteBoundaries_iff (l : List Char) (e : Nat) :
    e ∈ byteBoundaries l ↔ ∃ k, k ≤ l.length ∧ e = utf8Len (l.take k) := by
  simp only [byteBoundaries, List.mem_map, List.mem_range, Nat.lt_succ_iff]
  constructor
  · rintro ⟨k, hk, rfl⟩; exact ⟨k, hk, rfl⟩
  · rintro ⟨k, hk, rfl⟩; exact ⟨k, hk, rfl⟩

theorem byteSlice_take (l : List Char) (k k' : Nat) (h : k ≤ k') :
    byteSlice l (utf8Len (l.take k)) (utf8Len (l.take k')) = (l.drop k).take (k' - k) := by
  unfold byteSlice
  rw [byteDrop_utf8Len_take]
  have hadd := utf8Len_take_add k l (k' - k)
  rw [Nat.add_sub_cancel' h] at hadd
  have hsub : utf8Len (l.take k') - utf8Len (l.take k) = utf8Len ((l.drop k).take (k' - k)) := by
    omega
  rw [hsub, byteTake_utf8Len_take]

theorem utf8Len_take_of_ge (l : List Char) (k : Nat) (h : l.length ≤ k) :
    utf8Len (l.take k) = utf8Len l := by
  rw [List.take_of_length_le h]

/-! ### Simulation frontier and end-position lemmas -/

theorem closureSet_nil (re : Regex) : closureSet re [] = [] := rfl

theorem stepSet_nil (re : Regex) (c : Char) : stepSet re [] c = [] := rfl

theorem has_accepting_state_nil (re : Regex) : has_accepting_state re [] = false := rfl

theorem runFrontier_nil_frontier (re : Regex) :
    ∀ cs : List Char, runFrontier re cs [] = [] := by
  intro cs
  induction cs with
  | nil => rfl
  | cons c rest ih =>
    show runFrontier re rest (stepSet re (closureSet re []) c) = []
    rw [closureSet_nil, stepSet_nil]
    exact ih

theorem simAux_endPos (re : Regex) :
    ∀ (cs : List Char) (pos : Nat) (st : List Nat) (caps : CapMap) (named : NCapMap)
      (e : Option Nat),
      (simAux re cs pos st caps named e).endPos = simEndAux re cs pos st e := by
  intro cs
  induction cs with
  | nil => intro pos st caps named e; rfl
  | cons c rest ih =>
    intro pos st caps named e
    by_cases hst : (stepSet re (closureSet re st) c).isEmpty
    · simp [simAux, simEndAux, hst]
    · simp only [simAux, simEndAux, hst, if_false, Bool.false_eq_true]
      exact ih _ _ _ _ _

theorem simEndAux_mono (re : Regex) :
    ∀ (cs : List Char) (pos : Nat) (st : List Nat) (a : Nat), a ≤ pos →
      ∃ q, simEndAux re cs pos st (some a) = some q ∧ a ≤ q := by
  intro cs
  induction cs with
  | nil =>
    intro pos st a ha
    simp only [simEndAux]
    by_cases hacc : has_accepting_state re (closureSet re st)
    · exact ⟨pos, by rw [if_pos hacc], ha⟩
    · exact ⟨a, by rw [if_neg hacc], Nat.le_refl a⟩
  | cons c rest ih =>
    intro pos st a ha
    simp only [simEndAux]
    by_cases hacc : has_accepting_state re (closureSet re st)
    · rw [if_pos hacc]
      by_cases hst : (stepSet re (closureSet re st) c).isEmpty
      · rw [if_pos hst]; exact ⟨pos, rfl, ha⟩
      · rw [if_neg hst]
        obtain ⟨q, hq, hle⟩ := ih (pos + c.utf8Size) _ pos (Nat.le_add_right _ _)
        exact ⟨q, hq, Nat.le_trans ha hle⟩
    · rw [if_neg hacc]
      by_cases hst : (stepSet re (closureSet re st) c).isEmpty
      · rw [if_pos hst]; exact ⟨a, rfl, Nat.le_refl a⟩
      · rw [if_neg hst]
        exact ih (pos + c.utf8Size) _ a (Nat.le_trans ha (Nat.le_add_right _ _))

theorem simEndAux_ge_of_accept (re : Regex) :
    ∀ (cs : List Char) (pos : Nat) (st : List Nat) (e : Option Nat) (k : Nat),
      k ≤ cs.length →
      has_accepting_state re (closureSet re (runFrontier re (cs.take k) st)) = true →
      ∃ q, simEndAux re cs pos st e = some q ∧ pos + utf8Len (cs.take k) ≤ q := by
  intro cs
  induction cs with
  | nil =>
    intro pos st e k hk hacc
    rw [List.length_nil, Nat.le_zero] at hk
    subst hk
    simp only [List.take_nil, runFrontier] at hacc
    simp only [simEndAux, hacc, if_true, utf8Len_nil, Nat.add_zero]
    exact ⟨pos, rfl, Nat.le_refl pos⟩
  | cons c rest ih =>
    intro pos st e k hk hacc
    cases k with
    | zero =>
      simp only [List.take_zero, runFrontier] at hacc
      simp only [simEndAux, hacc, if_true, utf8Len_nil, Nat.add_zero]
      by_cases hst : (stepSet re (closureSet re st) c).isEmpty
      · rw [if_pos hst]; exact ⟨pos, rfl, Nat.le_refl pos⟩
      · rw [if_neg hst]
        obtain ⟨q, hq, hle⟩ := simEndAux_mono re rest (pos + c.utf8Size) _ pos
          (Nat.le_add_right _ _)
        exact ⟨q, hq, hle⟩
    | succ k =>
      rw [List.take_succ_cons] at hacc
      have hrun : runFrontier re (c :: rest.take k) st =
          runFrontier re (rest.take k) (stepSet re (closureSet re st) c) := rfl
      rw [hrun] at hacc
      have hst : ¬(stepSet re (closureSet re st) c).isEmpty := by
        intro hempty
        rw [List.isEmpty_iff] at hempty
        rw [hempty, runFrontier_nil_frontier, closureSet_nil, has_accepting_state_nil] at hacc
        cases hacc
      simp only [simEndAux, if_neg hst]
      obtain ⟨q, hq, hle⟩ := ih (pos + c.utf8Size) _
        (if has_accepting_state re (closureSet re st) then some pos else e) k
        (Nat.le_of_succ_le_succ hk) hacc
      refine ⟨q, hq, ?_⟩
      rw [List.take_succ_cons, utf8Len_cons]
      omega

theorem simEndAux_some_spec (re : Regex) :
    ∀ (cs : List Char) (pos : Nat) (st : List Nat) (e : Option Nat) (q : Nat),
      simEndAux re cs pos st e = some q →
      e = some q ∨ ∃ k, k ≤ cs.length ∧
        has_accepting_state re (closureSet re (runFrontier re (cs.take k) st)) = true ∧
        q = pos + utf8Len (cs.take k) := by
  intro cs
  induction cs with
  | nil =>
    intro pos st e q hq
    simp only [simEndAux] at hq
    by_cases hacc : has_accepting_state re (closureSet re st)
    · rw [if_pos hacc] at hq
      right
      refine ⟨0, Nat.le_refl 0, ?_, ?_⟩
      · simpa [runFrontier] using hacc
      · simp only [List.take_nil, utf8Len_nil, Nat.add_zero]
        exact (Option.some.injEq _ _).mp hq.symm
    · rw [if_neg hacc] at hq
      left; exact hq
  | cons c rest ih =>
    intro pos st e q hq
    simp only [simEndAux] at hq
    by_cases hst : (stepSet re (closureSet re st) c).isEmpty
    · rw [if_pos hst] at hq
      by_cases hacc : has_accepting_state re (closureSet re st)
      · rw [if_pos hacc] at hq
        right
        refine ⟨0, Nat.zero_le _, ?_, ?_⟩
        · simpa [runFrontier] using hacc
        · simp only [List.take_zero, utf8Len_nil, Nat.add_zero]
          exact (Option.some.injEq _ _).mp hq.symm
      · rw [if_neg hacc] at hq
        left; exact hq
    · rw [if_neg hst] at hq
      rcases ih (pos + c.utf8Size) _ _ q hq with h2 | ⟨k, hk, hacc2, hq2⟩
      · by_cases hacc : has_accepting_state re (closureSet re st)
        · rw [if_pos hacc] at h2
          right
          refine ⟨0, Nat.zero_le _, ?_, ?_⟩
          · simpa [runFrontier] using hacc
          · simp only [List.take_zero, utf8Len_nil, Nat.add_zero]
            exact (Option.some.injEq _ _).mp h2.symm
        · rw [if_neg hacc] at h2
          left; exact h2
      · right
        refine ⟨k + 1, Nat.succ_le_succ hk, ?_, ?_⟩
        · rw [List.take_succ_cons]
          exact hacc2
        · rw [List.take_succ_cons, utf8Len_cons]
          omega

/-! ### Characterization of the find loop -/

theorem matchesAux_false_shape (re : Regex) (input : List Char) :
    ∀ pairs, matchesAux re input false pairs [] = [] ∨
      ∃ c, matchesAux re input false pairs [] = [c] := by
  intro pairs
  induction pairs with
  | nil => left; rfl
  | cons p rest ih =>
    obtain ⟨i, ch⟩ := p
    simp only [matchesAux, List.getLast?, Nat.lt_irrefl, if_false]
    cases (simAux re (byteDrop input i) i [START] [] [] none).endPos with
    | none => exact ih
    | some e => right; exact ⟨_, rfl⟩

theorem matchesAux_false_spec (re : Regex) (input : List Char) :
    ∀ (l : List Char) (k0 : Nat), input.drop k0 = l →
      ∀ c, matchesAux re input false (charIdx (utf8Len (input.take k0)) l) [] = [c] →
      ∃ k e, k0 ≤ k ∧ k < input.length ∧
        simEndAux re (input.drop k) (utf8Len (input.take k)) [START] none = some e ∧
        c = buildCapture input (utf8Len (input.take k))
              (simAux re (input.drop k) (utf8Len (input.take k)) [START] [] [] none).caps
              (simAux re (input.drop k) (utf8Len (input.take k)) [START] [] [] none).named
              (some e) ∧
        (∀ j, k0 ≤ j → j < k →
          simEndAux re (input.drop j) (utf8Len (input.take j)) [START] none = none) := by
  intro l
  induction l with
  | nil =>
    intro k0 hdrop c hc
    simp only [charIdx, matchesAux] at hc
    exact absurd hc.symm (List.cons_ne_nil c [])
  | cons c0 rest ih =>
    intro k0 hdrop c hc
    have hk0len : k0 < input.length := by
      have hlen := List.length_drop k0 input
      rw [hdrop] at hlen
      simp only [List.length_cons] at hlen
      omega
    have hdrop1 : input.drop (k0 + 1) = rest := by
      have h2 : (input.drop k0).drop 1 = input.drop (k0 + 1) := List.drop_drop 1 k0 input
      rw [hdrop] at h2
      simp only [List.drop_succ_cons, List.drop_zero] at h2
      exact h2.symm
    have hfpos1 : utf8Len (input.take (k0 + 1)) = utf8Len (input.take k0) + c0.utf8Size := by
      have hadd := utf8Len_take_add k0 input 1
      rw [hdrop] at hadd
      simp only [List.take_succ_cons, List.take_zero, utf8Len_cons, utf8Len_nil,
        Nat.add_zero] at hadd
      exact hadd
    rw [charIdx] at hc
    simp only [matchesAux, List.getLast?, Nat.lt_irrefl, if_false] at hc
    rw [byteDrop_utf8Len_take, hdrop] at hc
    cases hend : (simAux re (c0 :: rest) (utf8Len (input.take k0)) [START] [] [] none).endPos with
    | some e =>
      rw [hend] at hc
      simp only [Bool.false_eq_true, if_false, List.cons.injEq, and_true] at hc
      refine ⟨k0, e, Nat.le_refl k0, hk0len, ?_, ?_, ?_⟩
      · rw [← simAux_endPos re _ _ _ [] [] none, hdrop]
        exact hend
      · rw [hdrop]
        exact hc.symm
      · intro j h1 h2
        omega
    | none =>
      rw [hend] at hc
      rw [← hfpos1] at hc
      obtain ⟨k, e, h1, h2, h3, h4, h5⟩ := ih (k0 + 1) hdrop1 c hc
      refine ⟨k, e, by omega, h2, h3, h4, ?_⟩
      intro j hj1 hj2
      by_cases hjk : j = k0
      · subst hjk
        rw [← simAux_endPos re _ _ _ [] [] none, hdrop]
        exact hend
      · exact h5 j (by omega) hj2

/-- C1: if `find` returns a match then its endpoints are ordered character
    boundaries, the reported substring is the byte slice between them, the
    automaton accepts that slice, no match exists starting at any earlier
    character boundary (leftmost), and the end is the largest boundary `e`
    such that the automaton accepts the slice from the start to `e`
    (longest at that start). -/
theorem c1_find_leftmost_longest (re : Regex) (input : List Char) (m : Match)
    (h : findFn re input = some m) :
    m.start ≤ m.end_
    ∧ m.start ∈ byteBoundaries input
    ∧ m.end_ ∈ byteBoundaries input
    ∧ m.string = byteSlice input m.start m.end_
    ∧ nfaAccepts re (byteSlice input m.start m.end_) = true
    ∧ (∀ i ∈ byteBoundaries input, i < m.start → matchExistsAt re input i = false)
    ∧ (∀ e ∈ byteBoundaries input, nfaAccepts re (byteSlice input m.start e) = true →
        e ≤ m.end_) := by
  have hshape := matchesAux_false_shape re input (charIdx 0 input)
  unfold findFn at h
  rcases hshape with hnil | ⟨c, hone⟩
  · rw [show matchesFn re input false = matchesAux re input false (charIdx 0 input) [] from rfl,
      hnil] at h
    cases h
  · rw [show matchesFn re input false = matchesAux re input false (charIdx 0 input) [] from rfl,
      hone] at h
    simp only [List.head?_cons, Option.some_bind] at h
    have h00 : charIdx 0 input = charIdx (utf8Len (input.take 0)) (input.drop 0) := by
      simp [utf8Len_nil]
    rw [h00] at hone
    obtain ⟨k, e, hk0, hklen, hsimEnd, hceq, hnone⟩ :=
      matchesAux_false_spec re input input 0 (List.drop_zero input) c hone
    rw [hceq, buildCapture_get0] at h
    have hmeq : m = ⟨utf8Len (input.take k), e, byteSlice input (utf8Len (input.take k)) e⟩ :=
      (Option.some.injEq _ _).mp h.symm
    have hms : m.start = utf8Len (input.take k) := by rw [hmeq]
    have hme : m.end_ = e := by rw [hmeq]
    have hmstr : m.string = byteSlice input (utf8Len (input.take k)) e := by rw [hmeq]
    obtain hspec := simEndAux_some_spec re (input.drop k) _ _ _ _ hsimEnd
    rcases hspec with hfalse | ⟨k', hk'len, hacc', he⟩
    · cases hfalse
    have hKlen : k + k' ≤ input.length := by
      rw [List.length_drop] at hk'len
      omega
    have heK : e = utf8Len (input.take (k + k')) := by
      rw [utf8Len_take_add k input k']
      exact he
    have hstart_le : utf8Len (input.take k) ≤ e := by
      rw [heK]
      exact utf8Len_take_le input k (k + k') (Nat.le_add_right _ _)
    refine ⟨?_, ?_, ?_, ?_, ?_, ?_, ?_⟩
    · rw [hms, hme]; exact hstart_le
    · rw [hms]; exact (mem_byteBoundaries_iff input _).mpr ⟨k, Nat.le_of_lt hklen, rfl⟩
    · rw [hme]; exact (mem_byteBoundaries_iff input _).mpr ⟨k + k', hKlen, heK⟩
    · rw [hmstr, hms, hme]
    · rw [hms, hme, heK, byteSlice_take input k (k + k') (Nat.le_add_right _ _),
        Nat.add_sub_cancel_left]
      exact hacc'
    · intro i hi hilt
      rw [hms] at hilt
      obtain ⟨k2, hk2, rfl⟩ := (mem_byteBoundaries_iff input i).mp hi
      have hk2k : k2 < k := by
        by_contra hge
        push_neg at hge
        exact absurd (utf8Len_take_le input k k2 hge) (by omega)
      have hnone2 := hnone k2 (Nat.zero_le k2) hk2k
      simp only [matchExistsAt, List.any_eq_false]
      intro e' he'
      obtain ⟨k3, hk3, rfl⟩ := (mem_byteBoundaries_iff input e').mp he'
      by_cases hk23 : k2 ≤ k3
      · have hslice : byteSlice input (utf8Len (input.take k2)) (utf8Len (input.take k3)) =
            (input.drop k2).take (k3 - k2) := byteSlice_take input k2 k3 hk23
        have haccfalse : nfaAccepts re ((input.drop k2).take (k3 - k2)) = false := by
          by_contra htrue
          rw [Bool.not_eq_false] at htrue
          obtain ⟨q, hq, _⟩ := simEndAux_ge_of_accept re (input.drop k2)
            (utf8Len (input.take k2)) [START] none (k3 - k2)
            (by rw [List.length_drop]; omega) htrue
          rw [hnone2] at hq
          cases hq
        rw [hslice, haccfalse]
        simp
      · push_neg at hk23
        have hlt32 : utf8Len (input.take k3) < utf8Len (input.take k2) :=
          utf8Len_take_lt input k3 k2 (by omega) hk23
        simp only [Bool.and_eq_true, decide_eq_true_eq]
        intro hcon
        omega
    · intro e' he' hacc3
      rw [hms] at hacc3
      rw [hme]
      obtain ⟨k3, hk3, rfl⟩ := (mem_byteBoundaries_iff input e').mp he'
      by_cases hk3k : k3 ≤ k
      · exact Nat.le_trans (utf8Len_take_le input k3 k hk3k) hstart_le
      · push_neg at hk3k
        have hslice : byteSlice input (utf8Len (input.take k)) (utf8Len (input.take k3)) =
            (input.drop k).take (k3 - k) := byteSlice_take input k k3 (Nat.le_of_lt hk3k)
        rw [hslice] at hacc3
        obtain ⟨q, hq, hqe⟩ := simEndAux_ge_of_accept re (input.drop k)
          (utf8Len (input.take k)) [START] none (k3 - k)
          (by rw [List.length_drop]; omega) hacc3
        rw [hsimEnd] at hq
        have hqe2 : q = e := ((Option.some.injEq _ _).mp hq).symm
        have hadd2 := utf8Len_take_add k input (k3 - k)
        rw [Nat.add_sub_cancel' (Nat.le_of_lt hk3k)] at hadd2
        omega

/-- C1 witness: the theorem applied to the pattern `a` on input `ba`,
    where `find` returns the match at bytes 1..2. -/
theorem c1_find_leftmost_longest_witness :
    (1 : Nat) ≤ 2
    ∧ (1 : Nat) ∈ byteBoundaries ['b', 'a']
    ∧ (2 : Nat) ∈ byteBoundaries ['b', 'a']
    ∧ (['a'] : List Char) = byteSlice ['b', 'a'] 1 2
    ∧ nfaAccepts (regexFromNode (Node.Character 'a')) (byteSlice ['b', 'a'] 1 2) = true
    ∧ (∀ i ∈ byteBoundaries ['b', 'a'], i < 1 →
        matchExistsAt (regexFromNode (Node.Character 'a')) ['b', 'a'] i = false)
    ∧ (∀ e ∈ byteBoundaries ['b', 'a'],
        nfaAccepts (regexFromNode (Node.Character 'a')) (byteSlice ['b', 'a'] 1 e) = true →
        e ≤ 2) :=
  c1_find_leftmost_longest (regexFromNode (Node.Character 'a')) ['b', 'a'] ⟨1, 2, ['a']⟩
    (by decide)

/-! ### Shift invariance and extraction lemmas (for C8) -/

theorem simEndAux_shift (re : Regex) :
    ∀ (cs : List Char) (pos : Nat) (st : List Nat) (e : Option Nat) (d : Nat),
      simEndAux re cs (d + pos) st (Option.map (fun x => d + x) e) =
        Option.map (fun x => d + x) (simEndAux re cs pos st e) := by
  intro cs
  induction cs with
  | nil =>
    intro pos st e d
    simp only [simEndAux]
    by_cases hacc : has_accepting_state re (closureSet re st)
    · rw [if_pos hacc, if_pos hacc]; rfl
    · rw [if_neg hacc, if_neg hacc]
  | cons c rest ih =>
    intro pos st e d
    simp only [simEndAux]
    by_cases hacc : has_accepting_state re (closureSet re st)
    · rw [if_pos hacc, if_pos hacc]
      by_cases hst : (stepSet re (closureSet re st) c).isEmpty
      · rw [if_pos hst, if_pos hst]; rfl
      · rw [if_neg hst, if_neg hst]
        have hthis := ih (pos + c.utf8Size) (stepSet re (closureSet re st) c) (some pos) d
        have hms : Option.map (fun x => d + x) (some pos) = some (d + pos) := rfl
        rw [hms] at hthis
        rw [Nat.add_assoc]
        exact hthis
    · rw [if_neg hacc, if_neg hacc]
      by_cases hst : (stepSet re (closureSet re st) c).isEmpty
      · rw [if_pos hst, if_pos hst]
      · rw [if_neg hst, if_neg hst]
        have hthis := ih (pos + c.utf8Size) (stepSet re (closureSet re st) c) e d
        rw [Nat.add_assoc]
        exact hthis

theorem capMatches_append (l1 l2 : List Capture) :
    capMatches (l1 ++ l2) = capMatches l1 ++ capMatches l2 := by
  induction l1 with
  | nil => rfl
  | cons c rest ih =>
    simp only [capMatches, List.foldr_cons, List.cons_append, List.foldr_append] at ih ⊢
    cases alookup 0 c.captures with
    | none => exact ih
    | some m => simp only [List.cons_append]; rw [ih]

theorem capMatches_singleton_of_get0 (c : Capture) (m : Match)
    (h : alookup 0 c.captures = some m) : capMatches [c] = [m] := by
  simp only [capMatches, List.foldr_cons, List.foldr_nil, h]

theorem findFn_suffix_of_simEnd (re : Regex) (input : List Char) (k e : Nat)
    (hk : k < input.length)
    (hsim : simEndAux re (input.drop k) (utf8Len (input.take k)) [START] none = some e) :
    findFn re (input.drop k) =
      some ⟨0, e - utf8Len (input.take k), byteSlice input (utf8Len (input.take k)) e⟩ := by
  have hne : input.drop k ≠ [] := by
    intro hnil
    have hlen := List.length_drop k input
    rw [hnil] at hlen
    simp only [List.length_nil] at hlen
    omega
  obtain ⟨c0, rest, hcons⟩ := List.exists_cons_of_ne_nil hne
  have hshift := simEndAux_shift re (input.drop k) 0 [START] none (utf8Len (input.take k))
  have hmn : Option.map (fun x => utf8Len (input.take k) + x) (none : Option Nat) = none := rfl
  rw [Nat.add_zero, hmn] at hshift
  rw [hsim] at hshift
  obtain ⟨e0, he0, hde⟩ : ∃ e0,
      simEndAux re (input.drop k) 0 [START] none = some e0 ∧ utf8Len (input.take k) + e0 = e := by
    cases hx : simEndAux re (input.drop k) 0 [START] none with
    | none => rw [hx] at hshift; cases hshift
    | some v =>
      rw [hx] at hshift
      refine ⟨v, rfl, ?_⟩
      exact (Option.some.injEq _ _).mp hshift.symm
  unfold findFn
  rw [show matchesFn re (input.drop k) false =
      matchesAux re (input.drop k) false (charIdx 0 (input.drop k)) [] from rfl]
  rw [hcons, charIdx]
  simp only [matchesAux, List.getLast?, Nat.lt_irrefl, if_false]
  rw [show byteDrop (c0 :: rest) 0 = c0 :: rest from rfl]
  have hend : (simAux re (c0 :: rest) 0 [START] [] [] none).endPos = some e0 := by
    rw [simAux_endPos, ← hcons]
    exact he0
  rw [hend]
  simp only [Bool.false_eq_true, if_false, List.head?_cons, Option.some_bind]
  rw [buildCapture_get0]
  have hslice : byteSlice (c0 :: rest) 0 e0 = byteSlice input (utf8Len (input.take k)) e := by
    unfold byteSlice
    rw [show byteDrop (c0 :: rest) 0 = c0 :: rest from rfl, Nat.sub_zero, ← hcons,
      byteDrop_utf8Len_take]
    congr 1
    omega
  rw [hslice]
  have he0e : e0 = e - utf8Len (input.take k) := by omega
  rw [he0e]

theorem matchesAux_true_spec (re : Regex) (input : List Char) :
    ∀ (l : List Char) (k0 : Nat), input.drop k0 = l →
      ∀ (acc : List Capture),
      (∀ c ∈ acc, ∃ m, alookup 0 c.captures = some m) →
      List.Pairwise (fun a b => a.start < b.start ∧ a.end_ ≤ b.start) (capMatches acc) →
      (∀ m ∈ capMatches acc, m.start ≤ m.end_ ∧
        findFn re (byteDrop input m.start) = some ⟨0, m.end_ - m.start, m.string⟩) →
      (match acc.getLast? with
        | some capt => ∃ mL, capt.get 0 = some mL ∧ (capMatches acc).getLast? = some mL ∧
            mL.start < utf8Len (input.take k0) ∧
            ∀ m ∈ capMatches acc, m.end_ ≤ mL.end_ ∧ m.start ≤ mL.start
        | none => capMatches acc = []) →
      List.Pairwise (fun a b => a.start < b.start ∧ a.end_ ≤ b.start)
          (capMatches (matchesAux re input true (charIdx (utf8Len (input.take k0)) l) acc))
      ∧ ∀ m ∈ capMatches (matchesAux re input true (charIdx (utf8Len (input.take k0)) l) acc),
          m.start ≤ m.end_ ∧
          findFn re (byteDrop input m.start) = some ⟨0, m.end_ - m.start, m.string⟩ := by
  intro l
  induction l with
  | nil =>
    intro k0 hdrop acc hwf hpair hP hlast
    simp only [charIdx, matchesAux]
    exact ⟨hpair, hP⟩
  | cons c0 rest ih =>
    intro k0 hdrop acc hwf hpair hP hlast
    have hk0len : k0 < input.length := by
      have hlen := List.length_drop k0 input
      rw [hdrop] at hlen
      simp only [List.length_cons] at hlen
      omega
    have hdrop1 : input.drop (k0 + 1) = rest := by
      have h2 : (input.drop k0).drop 1 = input.drop (k0 + 1) := List.drop_drop 1 k0 input
      rw [hdrop] at h2
      simp only [List.drop_succ_cons, List.drop_zero] at h2
      exact h2.symm
    have hfpos1 : utf8Len (input.take (k0 + 1)) = utf8Len (input.take k0) + c0.utf8Size := by
      have hadd := utf8Len_take_add k0 input 1
      rw [hdrop] at hadd
      simp only [List.take_succ_cons, List.take_zero, utf8Len_cons, utf8Len_nil,
        Nat.add_zero] at hadd
      exact hadd
    have hfposlt : utf8Len (input.take k0) < utf8Len (input.take (k0 + 1)) := by
      rw [hfpos1]
      have := Char.utf8Size_pos c0
      omega
    rw [charIdx]
    simp only [matchesAux]
    cases hlastc : acc.getLast? with
    | none =>
      rw [hlastc] at hlast
      rw [if_neg (Nat.lt_irrefl _), byteDrop_utf8Len_take]
      cases hend : (simAux re (input.drop k0) (utf8Len (input.take k0))
          [START] [] [] none).endPos with
      | none =>
        rw [← hfpos1]
        refine ih (k0 + 1) hdrop1 acc hwf hpair hP ?_
        rw [hlastc]
        exact hlast
      | some e =>
        have hsimE : simEndAux re (input.drop k0) (utf8Len (input.take k0))
            [START] none = some e := by
          rw [← simAux_endPos]
          exact hend
        have hie : utf8Len (input.take k0) ≤ e := by
          rcases simEndAux_some_spec re _ _ _ _ _ hsimE with hbad | ⟨k', _, _, he'⟩
          · cases hbad
          · omega
        have hfind := findFn_suffix_of_simEnd re input k0 e hk0len hsimE
        have hget0 : alookup 0 (buildCapture input (utf8Len (input.take k0))
            (simAux re (input.drop k0) (utf8Len (input.take k0)) [START] [] [] none).caps
            (simAux re (input.drop k0) (utf8Len (input.take k0)) [START] [] [] none).named
            (some e)).captures =
            some ⟨utf8Len (input.take k0), e,
              byteSlice input (utf8Len (input.take k0)) e⟩ := buildCapture_get0 _ _ _ _ _
        have hcap : capMatches (acc ++ [buildCapture input (utf8Len (input.take k0))
            (simAux re (input.drop k0) (utf8Len (input.take k0)) [START] [] [] none).caps
            (simAux re (input.drop k0) (utf8Len (input.take k0)) [START] [] [] none).named
            (some e)]) = capMatches acc ++
              [⟨utf8Len (input.take k0), e, byteSlice input (utf8Len (input.take k0)) e⟩] := by
          rw [capMatches_append, capMatches_singleton_of_get0 _ _ hget0]
        rw [← hfpos1]
        refine ih (k0 + 1) hdrop1 _ ?_ ?_ ?_ ?_
        · intro c hc
          rcases List.mem_append.mp hc with h | h
          · exact hwf c h
          · rcases List.mem_singleton.mp h with rfl
            exact ⟨_, hget0⟩
        · rw [hcap, hlast]
          simp
        · rw [hcap, hlast]
          intro m hm
          rcases List.mem_singleton.mp (by simpa using hm) with rfl
          refine ⟨hie, ?_⟩
          rw [byteDrop_utf8Len_take]
          exact hfind
        · rw [List.getLast?_concat]
          refine ⟨⟨utf8Len (input.take k0), e, byteSlice input (utf8Len (input.take k0)) e⟩,
            hget0, ?_, ?_, ?_⟩
          · rw [hcap, hlast, List.nil_append, List.getLast?_singleton]
          · exact hfposlt
          · rw [hcap, hlast]
            intro m hm
            rcases List.mem_singleton.mp (by simpa using hm) with rfl
            exact ⟨Nat.le_refl _, Nat.le_refl _⟩
    | some capt =>
      rw [hlastc] at hlast
      obtain ⟨mL, hm0, hcmL, hmLlt, hmLmax⟩ := hlast
      simp only [hm0]
      by_cases hrun : mL.end_ ≤ utf8Len (input.take k0)
      · have hs : (if utf8Len (input.take k0) > mL.end_ then utf8Len (input.take k0)
            else mL.end_) = utf8Len (input.take k0) := by
          by_cases h2 : utf8Len (input.take k0) > mL.end_
          · rw [if_pos h2]
          · rw [if_neg h2]; omega
        rw [hs, if_neg (Nat.lt_irrefl _), byteDrop_utf8Len_take]
        cases hend : (simAux re (input.drop k0) (utf8Len (input.take k0))
            [START] [] [] none).endPos with
        | none =>
          rw [← hfpos1]
          refine ih (k0 + 1) hdrop1 acc hwf hpair hP ?_
          rw [hlastc]
          exact ⟨mL, hm0, hcmL, by omega, hmLmax⟩
        | some e =>
          have hsimE : simEndAux re (input.drop k0) (utf8Len (input.take k0))
              [START] none = some e := by
            rw [← simAux_endPos]
            exact hend
          have hie : utf8Len (input.take k0) ≤ e := by
            rcases simEndAux_some_spec re _ _ _ _ _ hsimE with hbad | ⟨k', _, _, he'⟩
            · cases hbad
            · omega
          have hfind := findFn_suffix_of_simEnd re input k0 e hk0len hsimE
          have hget0 : alookup 0 (buildCapture input (utf8Len (input.take k0))
              (simAux re (input.drop k0) (utf8Len (input.take k0)) [START] [] [] none).caps
              (simAux re (input.drop k0) (utf8Len (input.take k0)) [START] [] [] none).named
              (some e)).captures =
              some ⟨utf8Len (input.take k0), e,
                byteSlice input (utf8Len (input.take k0)) e⟩ := buildCapture_get0 _ _ _ _ _
          have hcap : capMatches (acc ++ [buildCapture input (utf8Len (input.take k0))
              (simAux re (input.drop k0) (utf8Len (input.take k0)) [START] [] [] none).caps
              (simAux re (input.drop k0) (utf8Len (input.take k0)) [START] [] [] none).named
              (some e)]) = capMatches acc ++
                [⟨utf8Len (input.take k0), e, byteSlice input (utf8Len (input.take k0)) e⟩] := by
            rw [capMatches_append, capMatches_singleton_of_get0 _ _ hget0]
          rw [← hfpos1]
          refine ih (k0 + 1) hdrop1 _ ?_ ?_ ?_ ?_
          · intro c hc
            rcases List.mem_append.mp hc with h | h
            · exact hwf c h
            · rcases List.mem_singleton.mp h with rfl
              exact ⟨_, hget0⟩
          · rw [hcap]
            rw [List.pairwise_append]
            refine ⟨hpair, List.pairwise_singleton _ _, ?_⟩
            intro a ha b hb
            rcases List.mem_singleton.mp hb with rfl
            obtain ⟨hae, has⟩ := hmLmax a ha
            refine ⟨?_, ?_⟩
            · show a.start < utf8Len (input.take k0)
              omega
            · show a.end_ ≤ utf8Len (input.take k0)
              omega
          · rw [hcap]
            intro m hm
            rcases List.mem_append.mp hm with h | h
            · exact hP m h
            · rcases List.mem_singleton.mp h with rfl
              refine ⟨hie, ?_⟩
              rw [byteDrop_utf8Len_take]
              exact hfind
          · rw [List.getLast?_concat]
            refine ⟨⟨utf8Len (input.take k0), e, byteSlice input (utf8Len (input.take k0)) e⟩,
              hget0, ?_, ?_, ?_⟩
            · rw [hcap, List.getLast?_concat]
            · exact hfposlt
            · rw [hcap]
              intro m hm
              rcases List.mem_append.mp hm with h | h
              · obtain ⟨hae, has⟩ := hmLmax m h
                refine ⟨?_, ?_⟩
                · show m.end_ ≤ e
                  omega
                · show m.start ≤ utf8Len (input.take k0)
                  omega
              · rcases List.mem_singleton.mp h with rfl
                exact ⟨Nat.le_refl _, Nat.le_refl _⟩
      · push_neg at hrun
        have hs : (if utf8Len (input.take k0) > mL.end_ then utf8Len (input.take k0)
            else mL.end_) = mL.end_ := by
          rw [if_neg]
          omega
        rw [hs, if_pos hrun, ← hfpos1]
        refine ih (k0 + 1) hdrop1 acc hwf hpair hP ?_
        rw [hlastc]
        exact ⟨mL, hm0, hcmL, by omega, hmLmax⟩

/-- C8: the matches returned by `find_all` are strictly monotone in start
    and pairwise non-overlapping (each match ends no later than any later
    match starts, and spans are ordered), and each returned match is
    exactly what `find` returns on the suffix of the input beginning at
    its start (translated to suffix-relative offsets). -/
theorem c8_find_all_non_overlapping (re : Regex) (input : List Char) :
    List.Pairwise (fun a b => a.start < b.start ∧ a.end_ ≤ b.start) (findAllFn re input)
    ∧ ∀ m ∈ findAllFn re input, m.start ≤ m.end_ ∧
        findFn re (byteDrop input m.start) = some ⟨0, m.end_ - m.start, m.string⟩ := by
  have h := matchesAux_true_spec re input input 0 (List.drop_zero input) []
    (by intro c hc; cases hc)
    List.Pairwise.nil
    (by intro m hm; cases hm)
    rfl
  have h00 : matchesFn re input true =
      matchesAux re input true (charIdx (utf8Len (input.take 0)) (input.drop 0)) [] := by
    simp [matchesFn, utf8Len_nil]
  constructor
  · rw [show findAllFn re input = capMatches (matchesFn re input true) from rfl, h00]
    exact h.1
  · intro m hm
    rw [show findAllFn re input = capMatches (matchesFn re input true) from rfl, h00] at hm
    exact h.2 m hm

/-- C8 witness: the theorem applied to the pattern `a` on input `aba`
    (where `find_all` returns the matches at bytes 0..1 and 2..3), with
    both conjuncts evaluated. -/
theorem c8_find_all_non_overlapping_witness :
    (List.Pairwise (fun a b => a.start < b.start ∧ a.end_ ≤ b.start)
      (findAllFn (regexFromNode (Node.Character 'a')) ['a', 'b', 'a'])
    ∧ ∀ m ∈ findAllFn (regexFromNode (Node.Character 'a')) ['a', 'b', 'a'],
        m.start ≤ m.end_ ∧
        findFn (regexFromNode (Node.Character 'a')) (byteDrop ['a', 'b', 'a'] m.start) =
          some ⟨0, m.end_ - m.start, m.string⟩) :=
  c8_find_all_non_overlapping (regexFromNode (Node.Character 'a')) ['a', 'b', 'a']

/-! ### Capture-table invariants (for C9) -/

theorem entryInv_weaken (input : List Char) (pos q : Nat) (v : CapEntry)
    (h : EntryInv input pos v) (hpq : pos ≤ q) : EntryInv input q v := by
  obtain ⟨s, hs, hb, hsp, he⟩ := h
  refine ⟨s, hs, hb, Nat.le_trans hsp hpq, ?_⟩
  intro e hee
  obtain ⟨h1, h2, h3⟩ := he e hee
  exact ⟨h1, Nat.le_trans h2 hpq, h3⟩

theorem entryInv_startUpd (input : List Char) (pos q : Nat) (v : CapEntry)
    (h : EntryInv input pos v) (hpq : pos ≤ q) (hq : q ∈ byteBoundaries input) :
    EntryInv input q (startUpd q v) := by
  obtain ⟨s, hs, hb, hsp, he⟩ := h
  obtain ⟨v1, v2⟩ := v
  cases v2 with
  | none => exact ⟨q, rfl, hq, Nat.le_refl q, by intro e hee; cases hee⟩
  | some e2 =>
    refine ⟨s, hs, hb, Nat.le_trans hsp hpq, ?_⟩
    intro e hee
    obtain ⟨h1, h2, h3⟩ := he e hee
    exact ⟨h1, Nat.le_trans h2 hpq, h3⟩

theorem entryInv_fresh (input : List Char) (q : Nat) (hq : q ∈ byteBoundaries input) :
    EntryInv input q ((some q, none) : CapEntry) :=
  ⟨q, rfl, hq, Nat.le_refl q, by intro e hee; cases hee⟩

theorem entryInv_endUpd (input : List Char) (pos q : Nat) (v : CapEntry)
    (h : EntryInv input pos v) (hpq : pos ≤ q) (hq : q ∈ byteBoundaries input) :
    EntryInv input q (endUpd q v) := by
  obtain ⟨s, hs, hb, hsp, he⟩ := h
  obtain ⟨v1, v2⟩ := v
  simp only [endUpd]
  refine ⟨s, hs, hb, Nat.le_trans hsp hpq, ?_⟩
  intro e hee
  have : e = q := by
    simpa using hee.symm
  subst this
  exact ⟨hq, Nat.le_refl e, by omega⟩

theorem capUpdStart_inv (input : List Char) (pos q k : Nat) (m : CapMap)
    (h : ∀ p ∈ m, EntryInv input pos p.2) (hpq : pos ≤ q) (hq : q ∈ byteBoundaries input) :
    ∀ p ∈ capUpdStart k q m, EntryInv input q p.2 := by
  induction m with
  | nil =>
    intro p hp
    rcases List.mem_singleton.mp hp with rfl
    exact entryInv_fresh input q hq
  | cons kv rest ih =>
    obtain ⟨k', v⟩ := kv
    intro p hp
    simp only [capUpdStart] at hp
    by_cases h1 : k < k'
    · rw [if_pos h1] at hp
      rcases List.mem_cons.mp hp with rfl | hp2
      · exact entryInv_fresh input q hq
      · exact entryInv_weaken input pos q _ (h p hp2) hpq
    · rw [if_neg h1] at hp
      by_cases h2 : k = k'
      · rw [if_pos h2] at hp
        rcases List.mem_cons.mp hp with rfl | hp2
        · exact entryInv_startUpd input pos q v (h (k', v) (List.mem_cons_self _ _)) hpq hq
        · exact entryInv_weaken input pos q _ (h p (List.mem_cons_of_mem _ hp2)) hpq
      · rw [if_neg h2] at hp
        rcases List.mem_cons.mp hp with rfl | hp2
        · exact entryInv_weaken input pos q _ (h (k', v) (List.mem_cons_self _ _)) hpq
        · exact ih (fun p hp => h p (List.mem_cons_of_mem _ hp)) p hp2

theorem capUpdEnd_inv (input : List Char) (pos q k : Nat) (m : CapMap)
    (h : ∀ p ∈ m, EntryInv input pos p.2) (hpq : pos ≤ q) (hq : q ∈ byteBoundaries input) :
    ∀ p ∈ capUpdEnd k q m, EntryInv input q p.2 := by
  induction m with
  | nil => intro p hp; cases hp
  | cons kv rest ih =>
    obtain ⟨k', v⟩ := kv
    intro p hp
    simp only [capUpdEnd] at hp
    by_cases h2 : k = k'
    · rw [if_pos h2] at hp
      rcases List.mem_cons.mp hp with rfl | hp2
      · exact entryInv_endUpd input pos q v (h (k', v) (List.mem_cons_self _ _)) hpq hq
      · exact entryInv_weaken input pos q _ (h p (List.mem_cons_of_mem _ hp2)) hpq
    · rw [if_neg h2] at hp
      rcases List.mem_cons.mp hp with rfl | hp2
      · exact entryInv_weaken input pos q _ (h (k', v) (List.mem_cons_self _ _)) hpq
      · exact ih (fun p hp => h p (List.mem_cons_of_mem _ hp)) p hp2

theorem ncapUpdStart_inv (input : List Char) (pos q : Nat) (name : List Char) (m : NCapMap)
    (h : ∀ p ∈ m, EntryInv input pos p.2) (hpq : pos ≤ q) (hq : q ∈ byteBoundaries input) :
    ∀ p ∈ ncapUpdStart name q m, EntryInv input q p.2 := by
  induction m with
  | nil =>
    intro p hp
    rcases List.mem_singleton.mp hp with rfl
    exact entryInv_fresh input q hq
  | cons kv rest ih =>
    obtain ⟨k', v⟩ := kv
    intro p hp
    simp only [ncapUpdStart] at hp
    by_cases h2 : name = k'
    · rw [if_pos h2] at hp
      rcases List.mem_cons.mp hp with rfl | hp2
      · exact entryInv_startUpd input pos q v (h (k', v) (List.mem_cons_self _ _)) hpq hq
      · exact entryInv_weaken input pos q _ (h p (List.mem_cons_of_mem _ hp2)) hpq
    · rw [if_neg h2] at hp
      rcases List.mem_cons.mp hp with rfl | hp2
      · exact entryInv_weaken input pos q _ (h (k', v) (List.mem_cons_self _ _)) hpq
      · exact ih (fun p hp => h p (List.mem_cons_of_mem _ hp)) p hp2

theorem ncapUpdEnd_inv (input : List Char) (pos q : Nat) (name : List Char) (m : NCapMap)
    (h : ∀ p ∈ m, EntryInv input pos p.2) (hpq : pos ≤ q) (hq : q ∈ byteBoundaries input) :
    ∀ p ∈ ncapUpdEnd name q m, EntryInv input q p.2 := by
  induction m with
  | nil => intro p hp; cases hp
  | cons kv rest ih =>
    obtain ⟨k', v⟩ := kv
    intro p hp
    simp only [ncapUpdEnd] at hp
    by_cases h2 : name = k'
    · rw [if_pos h2] at hp
      rcases List.mem_cons.mp hp with rfl | hp2
      · exact entryInv_endUpd input pos q v (h (k', v) (List.mem_cons_self _ _)) hpq hq
      · exact entryInv_weaken input pos q _ (h p (List.mem_cons_of_mem _ hp2)) hpq
    · rw [if_neg h2] at hp
      rcases List.mem_cons.mp hp with rfl | hp2
      · exact entryInv_weaken input pos q _ (h (k', v) (List.mem_cons_self _ _)) hpq
      · exact ih (fun p hp => h p (List.mem_cons_of_mem _ hp)) p hp2

theorem foldl_preserve {α σ : Type} (f : σ → α → σ) (Q : σ → Prop)
    (h : ∀ s a, Q s → Q (f s a)) : ∀ (l : List α) (s : σ), Q s → Q (l.foldl f s) := by
  intro l
  induction l with
  | nil => intro s hs; exact hs
  | cons x xs ih => intro s hs; rw [List.foldl_cons]; exact ih _ (h s x hs)

theorem update_capture_start_inv (input : List Char) (pos q : Nat) (g : CaptureKind)
    (captures : CapMap) (named : NCapMap)
    (hc : ∀ p ∈ captures, EntryInv input q p.2) (hn : ∀ p ∈ named, EntryInv input q p.2)
    (hq : q ∈ byteBoundaries input) :
    (∀ p ∈ (update_capture_start g q captures named).1, EntryInv input q p.2) ∧
    (∀ p ∈ (update_capture_start g q captures named).2, EntryInv input q p.2) := by
  cases g with
  | Indexed index =>
    exact ⟨capUpdStart_inv input q q (index + 1) captures hc (Nat.le_refl q) hq, hn⟩
  | Named name =>
    exact ⟨hc, ncapUpdStart_inv input q q name named hn (Nat.le_refl q) hq⟩

theorem update_capture_end_inv (input : List Char) (q : Nat) (g : CaptureKind)
    (captures : CapMap) (named : NCapMap)
    (hc : ∀ p ∈ captures, EntryInv input q p.2) (hn : ∀ p ∈ named, EntryInv input q p.2)
    (hq : q ∈ byteBoundaries input) :
    (∀ p ∈ (update_capture_end g q captures named).1, EntryInv input q p.2) ∧
    (∀ p ∈ (update_capture_end g q captures named).2, EntryInv input q p.2) := by
  cases g with
  | Indexed index =>
    exact ⟨capUpdEnd_inv input q q (index + 1) captures hc (Nat.le_refl q) hq, hn⟩
  | Named name =>
    exact ⟨hc, ncapUpdEnd_inv input q q name named hn (Nat.le_refl q) hq⟩

theorem update_captures_inv (re : Regex) (input : List Char) (pos q : Nat)
    (states : List Nat) (captures : CapMap) (named : NCapMap)
    (hc : ∀ p ∈ captures, EntryInv input pos p.2) (hn : ∀ p ∈ named, EntryInv input pos p.2)
    (hpq : pos ≤ q) (hq : q ∈ byteBoundaries input) :
    (∀ p ∈ (update_captures re states q captures named).1, EntryInv input q p.2) ∧
    (∀ p ∈ (update_captures re states q captures named).2, EntryInv input q p.2) := by
  unfold update_captures
  have hQ : ∀ (acc : CapMap × NCapMap),
      ((∀ p ∈ acc.1, EntryInv input q p.2) ∧ ∀ p ∈ acc.2, EntryInv input q p.2) →
      ∀ s, ((∀ p ∈ (updateCapturesState re s q acc.1 acc.2).1, EntryInv input q p.2) ∧
        ∀ p ∈ (updateCapturesState re s q acc.1 acc.2).2, EntryInv input q p.2) := by
    intro acc hacc s
    unfold updateCapturesState
    have hp1 : ∀ (t : CapMap × NCapMap),
        ((∀ p ∈ t.1, EntryInv input q p.2) ∧ ∀ p ∈ t.2, EntryInv input q p.2) →
        ∀ (gs : List CaptureKind),
        ((∀ p ∈ (gs.foldl (fun acc g => update_capture_start g q acc.1 acc.2) t).1,
            EntryInv input q p.2) ∧
          ∀ p ∈ (gs.foldl (fun acc g => update_capture_start g q acc.1 acc.2) t).2,
            EntryInv input q p.2) := by
      intro t ht gs
      refine foldl_preserve _ (fun t => (∀ p ∈ t.1, EntryInv input q p.2) ∧
        ∀ p ∈ t.2, EntryInv input q p.2) ?_ gs t ht
      intro t g ht2
      exact update_capture_start_inv input q q g t.1 t.2 ht2.1 ht2.2 hq
    have hp2 : ∀ (t : CapMap × NCapMap),
        ((∀ p ∈ t.1, EntryInv input q p.2) ∧ ∀ p ∈ t.2, EntryInv input q p.2) →
        ∀ (gs : List CaptureKind),
        ((∀ p ∈ (gs.foldl (fun acc g => update_capture_end g q acc.1 acc.2) t).1,
            EntryInv input q p.2) ∧
          ∀ p ∈ (gs.foldl (fun acc g => update_capture_end g q acc.1 acc.2) t).2,
            EntryInv input q p.2) := by
      intro t ht gs
      refine foldl_preserve _ (fun t => (∀ p ∈ t.1, EntryInv input q p.2) ∧
        ∀ p ∈ t.2, EntryInv input q p.2) ?_ gs t ht
      intro t g ht2
      exact update_capture_end_inv input q g t.1 t.2 ht2.1 ht2.2 hq
    cases hs1 : alookup s re.start_capture with
    | none =>
      cases hs2 : alookup s re.end_capture with
      | none => exact hacc
      | some gs => exact hp2 acc hacc gs
    | some gs1 =>
      cases hs2 : alookup s re.end_capture with
      | none => exact hp1 acc hacc gs1
      | some gs2 => exact hp2 _ (hp1 acc hacc gs1) gs2
  have hstart : (∀ p ∈ captures, EntryInv input q p.2) ∧
      ∀ p ∈ named, EntryInv input q p.2 :=
    ⟨fun p hp => entryInv_weaken input pos q _ (hc p hp) hpq,
     fun p hp => entryInv_weaken input pos q _ (hn p hp) hpq⟩
  exact foldl_preserve _ (fun t => (∀ p ∈ t.1, EntryInv input q p.2) ∧
    ∀ p ∈ t.2, EntryInv input q p.2)
    (fun t s ht => hQ t ht s) states (captures, named) hstart

theorem simAux_capInv (re : Regex) (input : List Char) :
    ∀ (cs : List Char) (pos : Nat) (st : List Nat) (caps : CapMap) (named : NCapMap)
      (e : Option Nat),
      (∀ p ∈ caps, EntryInv input pos p.2) →
      (∀ p ∈ named, EntryInv input pos p.2) →
      (∀ j, j ≤ cs.length → pos + utf8Len (cs.take j) ∈ byteBoundaries input) →
      (∀ p ∈ (simAux re cs pos st caps named e).caps,
        EntryInv input (pos + utf8Len cs) p.2) ∧
      (∀ p ∈ (simAux re cs pos st caps named e).named,
        EntryInv input (pos + utf8Len cs) p.2) := by
  intro cs
  induction cs with
  | nil =>
    intro pos st caps named e hc hn hbnd
    have hq : pos ∈ byteBoundaries input := by
      have := hbnd 0 (Nat.le_refl 0)
      simpa [utf8Len_nil] using this
    have := update_captures_inv re input pos pos (closureSet re st) caps named hc hn
      (Nat.le_refl pos) hq
    simp only [simAux, utf8Len_nil, Nat.add_zero]
    exact this
  | cons c rest ih =>
    intro pos st caps named e hc hn hbnd
    have hq : pos ∈ byteBoundaries input := by
      have := hbnd 0 (Nat.zero_le _)
      simpa [utf8Len_nil] using this
    have hupd := update_captures_inv re input pos pos (closureSet re st) caps named hc hn
      (Nat.le_refl pos) hq
    simp only [simAux]
    by_cases hst : (stepSet re (closureSet re st) c).isEmpty
    · rw [if_pos hst]
      constructor
      · intro p hp
        refine entryInv_weaken input pos _ _ (hupd.1 p hp) ?_
        exact Nat.le_add_right _ _
      · intro p hp
        refine entryInv_weaken input pos _ _ (hupd.2 p hp) ?_
        exact Nat.le_add_right _ _
    · rw [if_neg hst]
      have hbnd' : ∀ j, j ≤ rest.length →
          pos + c.utf8Size + utf8Len (rest.take j) ∈ byteBoundaries input := by
        intro j hj
        have := hbnd (j + 1) (Nat.succ_le_succ hj)
        rw [List.take_succ_cons, utf8Len_cons] at this
        rw [← Nat.add_assoc] at this
        exact this
      have hc' : ∀ p ∈ (update_captures re (closureSet re st) pos caps named).1,
          EntryInv input (pos + c.utf8Size) p.2 := by
        intro p hp
        exact entryInv_weaken input pos _ _ (hupd.1 p hp) (Nat.le_add_right _ _)
      have hn' : ∀ p ∈ (update_captures re (closureSet re st) pos caps named).2,
          EntryInv input (pos + c.utf8Size) p.2 := by
        intro p hp
        exact entryInv_weaken input pos _ _ (hupd.2 p hp) (Nat.le_add_right _ _)
      have := ih (pos + c.utf8Size) (stepSet re (closureSet re st) c) _ _
        (if has_accepting_state re (closureSet re st) then some pos else e) hc' hn' hbnd'
      rw [utf8Len_cons, ← Nat.add_assoc]
      exact this

theorem mem_insertPairSorted (k : Nat) (m : Match) :
    ∀ (l : List (Nat × Match)) (x : Nat × Match),
      x ∈ insertPairSorted k m l → x ∈ l ∨ x = (k, m) := by
  intro l
  induction l with
  | nil =>
    intro x hx
    rcases List.mem_singleton.mp hx with rfl
    right; rfl
  | cons p rest ih =>
    obtain ⟨k', m'⟩ := p
    intro x hx
    simp only [insertPairSorted] at hx
    by_cases h1 : k < k'
    · rw [if_pos h1] at hx
      rcases List.mem_cons.mp hx with rfl | hx2
      · right; rfl
      · left; exact hx2
    · rw [if_neg h1] at hx
      by_cases h2 : k = k'
      · rw [if_pos h2] at hx
        rcases List.mem_cons.mp hx with rfl | hx2
        · right; rw [h2]
        · left; exact List.mem_cons_of_mem _ hx2
      · rw [if_neg h2] at hx
        rcases List.mem_cons.mp hx with rfl | hx2
        · left; exact List.mem_cons_self _ _
        · rcases ih x hx2 with h | h
          · left; exact List.mem_cons_of_mem _ h
          · right; exact h

theorem mem_insertNamedPair (n : List Char) (m : Match) :
    ∀ (l : List (List Char × Match)) (x : List Char × Match),
      x ∈ insertNamedPair n m l → x ∈ l ∨ x = (n, m) := by
  intro l
  induction l with
  | nil =>
    intro x hx
    rcases List.mem_singleton.mp hx with rfl
    right; rfl
  | cons p rest ih =>
    obtain ⟨n', m'⟩ := p
    intro x hx
    simp only [insertNamedPair] at hx
    by_cases h2 : n = n'
    · rw [if_pos h2] at hx
      rcases List.mem_cons.mp hx with rfl | hx2
      · right; rw [h2]
      · left; exact List.mem_cons_of_mem _ hx2
    · rw [if_neg h2] at hx
      rcases List.mem_cons.mp hx with rfl | hx2
      · left; exact List.mem_cons_self _ _
      · rcases ih x hx2 with h | h
        · left; exact List.mem_cons_of_mem _ h
        · right; exact h

theorem mem_collectCaps (input : List Char) :
    ∀ (entries : CapMap) (acc : List (Nat × Match)) (x : Nat × Match),
      x ∈ entries.foldl
        (fun acc p =>
          match new_mach input p.2.1 p.2.2 with
          | some m => insertPairSorted p.1 m acc
          | none => acc) acc →
      x ∈ acc ∨ ∃ p ∈ entries, new_mach input p.2.1 p.2.2 = some x.2 := by
  intro entries
  induction entries with
  | nil =>
    intro acc x hx
    left; exact hx
  | cons p rest ih =>
    intro acc x hx
    rw [List.foldl_cons] at hx
    rcases ih _ x hx with h | ⟨p2, hp2, hm2⟩
    · cases hnm : new_mach input p.2.1 p.2.2 with
      | none =>
        rw [hnm] at h
        left; exact h
      | some m =>
        rw [hnm] at h
        rcases mem_insertPairSorted _ _ acc x h with h2 | h2
        · left; exact h2
        · right
          refine ⟨p, List.mem_cons_self _ _, ?_⟩
          rw [hnm, h2]
    · right
      exact ⟨p2, List.mem_cons_of_mem _ hp2, hm2⟩

theorem mem_collectNamed (input : List Char) :
    ∀ (entries : NCapMap) (acc : List (List Char × Match)) (x : List Char × Match),
      x ∈ entries.foldl
        (fun acc p =>
          match new_mach input p.2.1 p.2.2 with
          | some m => insertNamedPair p.1 m acc
          | none => acc) acc →
      x ∈ acc ∨ ∃ p ∈ entries, new_mach input p.2.1 p.2.2 = some x.2 := by
  intro entries
  induction entries with
  | nil =>
    intro acc x hx
    left; exact hx
  | cons p rest ih =>
    intro acc x hx
    rw [List.foldl_cons] at hx
    rcases ih _ x hx with h | ⟨p2, hp2, hm2⟩
    · cases hnm : new_mach input p.2.1 p.2.2 with
      | none =>
        rw [hnm] at h
        left; exact h
      | some m =>
        rw [hnm] at h
        rcases mem_insertNamedPair _ _ acc x h with h2 | h2
        · left; exact h2
        · right
          refine ⟨p, List.mem_cons_self _ _, ?_⟩
          rw [hnm, h2]
    · right
      exact ⟨p2, List.mem_cons_of_mem _ hp2, hm2⟩

theorem new_mach_wf (input : List Char) (P : Nat) (v : CapEntry)
    (h : EntryInv input P v) (m : Match) (hm : new_mach input v.1 v.2 = some m) :
    MatchWF input m := by
  obtain ⟨s, hs, hb, hsp, he⟩ := h
  obtain ⟨v1, v2⟩ := v
  simp only at hs
  subst hs
  cases v2 with
  | none => cases hm
  | some e =>
    obtain ⟨h1, h2, h3⟩ := he e rfl
    have hmeq : m = ⟨s, e, byteSlice input s e⟩ := by
      simpa [new_mach] using hm.symm
    subst hmeq
    exact ⟨h3, hb, h1, rfl⟩

theorem buildCapture_wf (input : List Char) (s0 e0 P : Nat) (caps : CapMap) (named : NCapMap)
    (hc : ∀ p ∈ caps, EntryInv input P p.2) (hn : ∀ p ∈ named, EntryInv input P p.2)
    (hs0 : s0 ∈ byteBoundaries input) (he0 : e0 ∈ byteBoundaries input) (hle : s0 ≤ e0) :
    CapturesWF input (buildCapture input s0 caps named (some e0)) := by
  constructor
  · intro p hp
    unfold buildCapture at hp
    rcases mem_collectCaps input _ _ _ hp with h | ⟨q, hq, hm⟩
    · cases h
    · rcases List.mem_append.mp hq with h2 | h2
      · exact new_mach_wf input P q.2 (hc q h2) p.2 hm
      · rcases List.mem_singleton.mp h2 with rfl
        refine new_mach_wf input (max P e0) _ ?_ p.2 hm
        exact ⟨s0, rfl, hs0, Nat.le_trans hle (Nat.le_max_right _ _), by
          intro e hee
          have : e = e0 := by simpa using hee.symm
          subst this
          exact ⟨he0, Nat.le_max_right _ _, hle⟩⟩
  · intro p hp
    unfold buildCapture at hp
    rcases mem_collectNamed input _ _ _ hp with h | ⟨q, hq, hm⟩
    · cases h
    · exact new_mach_wf input P q.2 (hn q hq) p.2 hm

theorem simBuild_wf (re : Regex) (input : List Char) (k e : Nat) (hk : k ≤ input.length)
    (hend : (simAux re (input.drop k) (utf8Len (input.take k))
      [START] [] [] none).endPos = some e) :
    CapturesWF input (buildCapture input (utf8Len (input.take k))
      (simAux re (input.drop k) (utf8Len (input.take k)) [START] [] [] none).caps
      (simAux re (input.drop k) (utf8Len (input.take k)) [START] [] [] none).named
      (some e)) := by
  have hsimE : simEndAux re (input.drop k) (utf8Len (input.take k)) [START] none = some e := by
    rw [← simAux_endPos]
    exact hend
  rcases simEndAux_some_spec re _ _ _ _ _ hsimE with hbad | ⟨k', hk', hacc', he⟩
  · cases hbad
  have hKlen : k + k' ≤ input.length := by
    rw [List.length_drop] at hk'
    omega
  have heK : e = utf8Len (input.take (k + k')) := by
    rw [utf8Len_take_add k input k']
    exact he
  have heB : e ∈ byteBoundaries input :=
    (mem_byteBoundaries_iff input e).mpr ⟨k + k', hKlen, heK⟩
  have hsB : utf8Len (input.take k) ∈ byteBoundaries input :=
    (mem_byteBoundaries_iff input _).mpr ⟨k, hk, rfl⟩
  have hle : utf8Len (input.take k) ≤ e := by
    rw [heK]
    exact utf8Len_take_le input k (k + k') (Nat.le_add_right _ _)
  have hbnd : ∀ j, j ≤ (input.drop k).length →
      utf8Len (input.take k) + utf8Len ((input.drop k).take j) ∈ byteBoundaries input := by
    intro j hj
    rw [← utf8Len_take_add]
    refine (mem_byteBoundaries_iff input _).mpr ⟨k + j, ?_, rfl⟩
    rw [List.length_drop] at hj
    omega
  have hinv := simAux_capInv re input (input.drop k) (utf8Len (input.take k)) [START] [] [] none
    (by intro p hp; cases hp) (by intro p hp; cases hp) hbnd
  exact buildCapture_wf input (utf8Len (input.take k)) e
    (utf8Len (input.take k) + utf8Len (input.drop k)) _ _ hinv.1 hinv.2 hsB heB hle

theorem matchesAux_wf (re : Regex) (input : List Char) (all : Bool) :
    ∀ (l : List Char) (k0 : Nat), input.drop k0 = l →
      ∀ (acc : List Capture), (∀ c ∈ acc, CapturesWF input c) →
      ∀ c ∈ matchesAux re input all (charIdx (utf8Len (input.take k0)) l) acc,
        CapturesWF input c := by
  intro l
  induction l with
  | nil =>
    intro k0 hdrop acc hacc c hc
    simp only [charIdx, matchesAux] at hc
    exact hacc c hc
  | cons c0 rest ih =>
    intro k0 hdrop acc hacc c hc
    have hk0len : k0 < input.length := by
      have hlen := List.length_drop k0 input
      rw [hdrop] at hlen
      simp only [List.length_cons] at hlen
      omega
    have hdrop1 : input.drop (k0 + 1) = rest := by
      have h2 : (input.drop k0).drop 1 = input.drop (k0 + 1) := List.drop_drop 1 k0 input
      rw [hdrop] at h2
      simp only [List.drop_succ_cons, List.drop_zero] at h2
      exact h2.symm
    have hfpos1 : utf8Len (input.take (k0 + 1)) = utf8Len (input.take k0) + c0.utf8Size := by
      have hadd := utf8Len_take_add k0 input 1
      rw [hdrop] at hadd
      simp only [List.take_succ_cons, List.take_zero, utf8Len_cons, utf8Len_nil,
        Nat.add_zero] at hadd
      exact hadd
    rw [charIdx] at hc
    simp only [matchesAux] at hc
    cases hlastc : acc.getLast? with
    | none =>
      simp only [hlastc] at hc
      rw [if_neg (Nat.lt_irrefl _), byteDrop_utf8Len_take] at hc
      cases hend : (simAux re (input.drop k0) (utf8Len (input.take k0))
          [START] [] [] none).endPos with
      | none =>
        simp only [hend] at hc
        rw [← hfpos1] at hc
        exact ih (k0 + 1) hdrop1 acc hacc c hc
      | some e =>
        simp only [hend] at hc
        have hwfnew := simBuild_wf re input k0 e (Nat.le_of_lt hk0len) hend
        cases all with
        | true =>
          simp only [if_true] at hc
          rw [← hfpos1] at hc
          refine ih (k0 + 1) hdrop1 _ ?_ c hc
          intro c' hc'
          rcases List.mem_append.mp hc' with h | h
          · exact hacc c' h
          · rcases List.mem_singleton.mp h with rfl
            exact hwfnew
        | false =>
          simp only [Bool.false_eq_true, if_false] at hc
          rcases List.mem_singleton.mp hc with rfl
          exact hwfnew
    | some capt =>
      simp only [hlastc] at hc
      cases hm0 : capt.get 0 with
      | none =>
        simp only [hm0] at hc
        rw [if_neg (Nat.lt_irrefl _), byteDrop_utf8Len_take] at hc
        cases hend : (simAux re (input.drop k0) (utf8Len (input.take k0))
            [START] [] [] none).endPos with
        | none =>
          simp only [hend] at hc
          rw [← hfpos1] at hc
          exact ih (k0 + 1) hdrop1 acc hacc c hc
        | some e =>
          simp only [hend] at hc
          have hwfnew := simBuild_wf re input k0 e (Nat.le_of_lt hk0len) hend
          cases all with
          | true =>
            simp only [if_true] at hc
            rw [← hfpos1] at hc
            refine ih (k0 + 1) hdrop1 _ ?_ c hc
            intro c' hc'
            rcases List.mem_append.mp hc' with h | h
            · exact hacc c' h
            · rcases List.mem_singleton.mp h with rfl
              exact hwfnew
          | false =>
            simp only [Bool.false_eq_true, if_false] at hc
            rcases List.mem_singleton.mp hc with rfl
            exact hwfnew
      | some mL =>
        simp only [hm0] at hc
        by_cases hrun : mL.end_ ≤ utf8Len (input.take k0)
        · have hval : (if utf8Len (input.take k0) > mL.end_ then utf8Len (input.take k0)
              else mL.end_) = utf8Len (input.take k0) := by
            by_cases h2 : utf8Len (input.take k0) > mL.end_
            · rw [if_pos h2]
            · rw [if_neg h2]; omega
          rw [hval, if_neg (Nat.lt_irrefl _), byteDrop_utf8Len_take] at hc
          cases hend : (simAux re (input.drop k0) (utf8Len (input.take k0))
              [START] [] [] none).endPos with
          | none =>
            simp only [hend] at hc
            rw [← hfpos1] at hc
            exact ih (k0 + 1) hdrop1 acc hacc c hc
          | some e =>
            simp only [hend] at hc
            have hwfnew := simBuild_wf re input k0 e (Nat.le_of_lt hk0len) hend
            cases all with
            | true =>
              simp only [if_true] at hc
              rw [← hfpos1] at hc
              refine ih (k0 + 1) hdrop1 _ ?_ c hc
              intro c' hc'
              rcases List.mem_append.mp hc' with h | h
              · exact hacc c' h
              · rcases List.mem_singleton.mp h with rfl
                exact hwfnew
            | false =>
              simp only [Bool.false_eq_true, if_false] at hc
              rcases List.mem_singleton.mp hc with rfl
              exact hwfnew
        · push_neg at hrun
          have hval : (if utf8Len (input.take k0) > mL.end_ then utf8Len (input.take k0)
              else mL.end_) = mL.end_ := by
            rw [if_neg]
            omega
          rw [hval, if_pos hrun, ← hfpos1] at hc
          exact ih (k0 + 1) hdrop1 acc hacc c hc

/-- C9: the matcher is total by construction (every searching function is a
    total Lean function of the compiled pattern and the input), and every
    binding it reports — whole match, indexed group or named group, under
    `find`, `find_all`, `captures` and `captures_all` alike, which all read
    off `matchesFn` — is well-formed: ordered endpoints lying on character
    boundaries of the input, with the reported substring equal to the byte
    slice between them (so every string-slicing operation of the source
    runs on codepoint boundaries and no panic branch is reachable). -/
theorem c9_matcher_total_wf (re : Regex) (input : List Char) (all : Bool)
    (c : Capture) (hc : c ∈ matchesFn re input all) :
    (∀ p ∈ c.captures, MatchWF input p.2) ∧
    (∀ p ∈ c.named_captures, MatchWF input p.2) := by
  have h00 : matchesFn re input all =
      matchesAux re input all (charIdx (utf8Len (input.take 0)) (input.drop 0)) [] := by
    simp [matchesFn, utf8Len_nil]
  rw [h00] at hc
  exact matchesAux_wf re input all input 0 (List.drop_zero input) []
    (by intro c' hc'; cases hc') c hc

/-- C9 witness: the theorem applied to the pattern `(a)` on input `ab` and
    the concrete capture the matcher returns there (whole match and group 1
    both bound to bytes 0..1), discharging the membership hypothesis by
    evaluation. -/
theorem c9_matcher_total_wf_witness :
    (∀ p ∈ (Capture.mk [(0, ⟨0, 1, ['a']⟩), (1, ⟨0, 1, ['a']⟩)] []).captures,
      MatchWF ['a', 'b'] p.2) ∧
    (∀ p ∈ (Capture.mk [(0, ⟨0, 1, ['a']⟩), (1, ⟨0, 1, ['a']⟩)] []).named_captures,
      MatchWF ['a', 'b'] p.2) :=
  c9_matcher_total_wf (regexFromNode (Node.Group (Node.Character 'a') true none))
    ['a', 'b'] false (Capture.mk [(0, ⟨0, 1, ['a']⟩), (1, ⟨0, 1, ['a']⟩)] []) (by decide)
